import Mathlib

/-!
Verification development for the conversation-fork core of the gemini-voyager
browser extension: the fork data model (`ForkNode`, `ForkNodesData`), the
turn-id normalizer, the fork plan resolver, the branch display builder, the
fork-store merge, and the markdown transcript composer.

Records and string-keyed JavaScript objects are embedded as Lean structures
and insertion-ordered association lists; JavaScript numbers holding integers
(`forkIndex`, `createdAt`) become `Int`.
-/

namespace GeminiVoyager

/-- One endpoint of a fork relationship, from `forkTypes.ts`. -/
structure ForkNode where
  turnId : String
  conversationId : String
  conversationUrl : String
  conversationTitle : Option String
  forkGroupId : String
  forkIndex : Int
  createdAt : Int
deriving DecidableEq, Repr

/-- The two-index fork dataset, from `forkTypes.ts`: `nodes` maps a
conversation id to its fork nodes, `groups` maps a fork group id to
composite `"conversationId:turnId"` keys. -/
structure ForkNodesData where
  nodes : List (String × List ForkNode)
  groups : List (String × List String)
deriving DecidableEq, Repr

/-- Concrete node builder used to instantiate theorems, mirroring the
`createForkNode` fixture of the merge test suite. -/
def mkForkNode (tid cid g : String) (fi ca : Int) : ForkNode :=
  { turnId := tid, conversationId := cid, conversationUrl := "",
    conversationTitle := none, forkGroupId := g, forkIndex := fi, createdAt := ca }

/-- First-match lookup on an insertion-ordered association list, modelling
JavaScript object property access `m[k]`. -/
def lookupA {α : Type} : List (String × α) → String → Option α
  | [], _ => none
  | (k', v) :: rest, k => if k' = k then some v else lookupA rest k

/-- Update-or-append on an association list, modelling JavaScript property
assignment `m[k] = v`: an existing key keeps its position, a new key is
appended at the end. -/
def setA {α : Type} : List (String × α) → String → α → List (String × α)
  | [], k, v => [(k, v)]
  | (k', v') :: rest, k, v => if k' = k then (k', v) :: rest else (k', v') :: setA rest k v

/-- The keys of an association list in insertion order (`Object.keys`). -/
def keysA {α : Type} (m : List (String × α)) : List String := m.map Prod.fst

/-- First-occurrence deduplication, modelling `Array.from(new Set(xs))`. -/
def dedupFirst (l : List String) : List String :=
  l.foldl (fun acc x => if x ∈ acc then acc else acc ++ [x]) []

-- ==========================================================================
-- TurnId normalizer (turnId.ts)
-- ==========================================================================

/-- An ECMAScript LineTerminator code point: LF, CR, LS or PS. These are
the characters the regex `.` (without the `s` flag) refuses to match. -/
def isLineTerminator (c : Char) : Bool :=
  c = '\u000A' || c = '\u000D' || c = '\u2028' || c = '\u2029'

/-- An ECMAScript WhiteSpace or LineTerminator code point: the set
`String.prototype.trim` strips: TAB, VT, FF, space, NBSP, OGHAM space
mark, the Zs separators U+2000 to U+200A, NARROW NBSP, MMSP, IDEOGRAPHIC
space, FEFF, and the line terminators. -/
def isJsWhitespace (c : Char) : Bool :=
  c = '\u0009' || c = '\u000B' || c = '\u000C' || c = '\u0020' ||
    c = '\u00A0' || c = '\u1680' || ('\u2000' ≤ c && c ≤ '\u200A') ||
    c = '\u202F' || c = '\u205F' || c = '\u3000' || c = '\uFEFF' ||
    isLineTerminator c

/-- JavaScript `String.prototype.trim`, modelled on the character list. -/
def trimString (s : String) : String :=
  ⟨((s.data.dropWhile isJsWhitespace).reverse.dropWhile isJsWhitespace).reverse⟩

/-- `makeStableTurnId(index)` from `turnId.ts`: the template
string `u-${Math.max(0, index)}`. -/
def makeStableTurnId (index : Int) : String :=
  "u-" ++ toString (max 0 index)

/-- The maximal run of decimal digits at the front of a character list,
with the remainder: the greedy match of the regex group `(\d+)`. -/
def takeDigits : List Char → List Char × List Char
  | [] => ([], [])
  | c :: cs =>
    if c.isDigit then
      let p := takeDigits cs
      (c :: p.1, p.2)
    else ([], c :: cs)

/-- Matching the anchored regex `^u-(\d+)(?:-.+)?$` from `turnId.ts`,
returning the captured digit group on success. The `.+$` part succeeds
only when the tail after the dash is non-empty, reaches the end of the
input, and contains no line terminator (the ECMAScript `.` never matches
one). -/
def matchUserTurn (cs : List Char) : Option (List Char) :=
  match cs with
  | a :: b :: rest =>
    if a = 'u' ∧ b = '-' then
      let p := takeDigits rest
      if p.1.isEmpty then none
      else
        match p.2 with
        | [] => some p.1
        | c :: tail =>
          if c = '-' ∧ tail ≠ [] ∧ ∀ ch ∈ tail, isLineTerminator ch = false then some p.1
          else none
    else none
  | _ => none

/-- `normalizeTurnId(turnId)` from `turnId.ts`: trim, then collapse a match
of `^u-(\d+)(?:-.+)?$` to `u-<digits>`; otherwise return the trimmed
string. -/
def normalizeTurnId (turnId : String) : String :=
  let trimmed := trimString turnId
  match matchUserTurn trimmed.data with
  | none => trimmed
  | some ds => "u-" ++ ⟨ds⟩

/-- Whether a character list starts with `u-<digit>`, used to state the
"no leading user-turn shape" side of the normalizer contract. -/
def hasUserTurnStart : List Char → Bool
  | a :: b :: c :: _ => a = 'u' && b = '-' && c.isDigit
  | _ => false

-- ==========================================================================
-- Fork plan resolver and branch display builder (branching.ts)
-- ==========================================================================

/-- The result record of `resolveForkPlan` in `branching.ts`. -/
structure ForkPlan where
  forkGroupId : String
  sourceForkIndex : Int
  nextForkIndex : Int
deriving DecidableEq, Repr

/-- `groups[g] || []` in `branching.ts`. -/
def groupNodesOf (groups : List (String × List ForkNode)) (g : String) : List ForkNode :=
  (lookupA groups g).getD []

/-- `resolveForkPlan` from `branching.ts`. The `[]` branch of the match is
the `sameTurnNodes.length === 0` early return: the deduplicated group-id
list is empty exactly when no node matches the normalized turn id. -/
def resolveForkPlan (conversationId turnId : String) (conversationNodes : List ForkNode)
    (groups : List (String × List ForkNode)) (createForkGroupId : Unit → String) : ForkPlan :=
  let normalizedTurnId := normalizeTurnId turnId
  let sameTurnNodes := conversationNodes.filter
    (fun node => normalizeTurnId node.turnId == normalizedTurnId)
  match dedupFirst (sameTurnNodes.map (fun node => node.forkGroupId)) with
  | [] => { forkGroupId := createForkGroupId (), sourceForkIndex := 0, nextForkIndex := 1 }
  | g0 :: grest =>
    let bestGroupId := (g0 :: grest).foldl
      (fun best g =>
        if (groupNodesOf groups g).length > (groupNodesOf groups best).length then g else best)
      g0
    let bestGroupNodes := groupNodesOf groups bestGroupId
    let sourceNode := bestGroupNodes.find? (fun node =>
      node.conversationId == conversationId && normalizeTurnId node.turnId == normalizedTurnId)
    let maxForkIndex := bestGroupNodes.foldl (fun m node => max m node.forkIndex) 0
    { forkGroupId := bestGroupId,
      sourceForkIndex := (sourceNode.map (fun node => node.forkIndex)).getD 0,
      nextForkIndex := maxForkIndex + 1 }

/-- The displayed order of `buildBranchDisplayNodes`: ascending `forkIndex`,
ties broken by ascending `createdAt` (the JavaScript sort comparator). -/
def lexLeB (a b : ForkNode) : Bool :=
  decide (a.forkIndex < b.forkIndex) ||
    (decide (a.forkIndex = b.forkIndex) && decide (a.createdAt ≤ b.createdAt))

/-- The display order as a proposition: smaller `forkIndex` first, equal
`forkIndex` ordered by `createdAt`. -/
def lexLe (a b : ForkNode) : Prop :=
  a.forkIndex < b.forkIndex ∨ (a.forkIndex = b.forkIndex ∧ a.createdAt ≤ b.createdAt)

/-- One step of the `dedupedByConversation` map construction in
`buildBranchDisplayNodes`: keep the incoming node when its `forkIndex` is
strictly smaller, or equal with a strictly smaller `createdAt`. -/
def dedupStep (m : List (String × ForkNode)) (node : ForkNode) : List (String × ForkNode) :=
  match lookupA m node.conversationId with
  | none => m ++ [(node.conversationId, node)]
  | some existing =>
    if node.forkIndex < existing.forkIndex then setA m node.conversationId node
    else if node.forkIndex = existing.forkIndex ∧ node.createdAt < existing.createdAt then
      setA m node.conversationId node
    else m

/-- `buildBranchDisplayNodes` from `branching.ts`: flatten, deduplicate by
conversation id keeping the `(forkIndex, createdAt)`-least candidate, then
sort by the display order. -/
def buildBranchDisplayNodes (groupNodesList : List (List ForkNode)) : List ForkNode :=
  ((groupNodesList.flatten.foldl dedupStep []).map Prod.snd).mergeSort lexLeB

-- ==========================================================================
-- Fork node store merge (merge.ts)
-- ==========================================================================

/-- Modelled from the spec: the repository ships only the test suite of
`mergeForkNodes` (`merge.ts` is absent from the sources); a raw merge
argument is either absent (`null`/`undefined`), malformed, or a well-formed
dataset. -/
inductive ForkDataInput where
  | absent : ForkDataInput
  | malformed : ForkDataInput
  | wellFormed (data : ForkNodesData) : ForkDataInput
deriving DecidableEq, Repr

/-- The empty dataset `{nodes: {}, groups: {}}`. -/
def emptyForkData : ForkNodesData := ⟨[], []⟩

/-- Modelled from the spec: an absent or malformed merge argument is
treated as the empty dataset. -/
def sanitizeForkData : ForkDataInput → ForkNodesData
  | .wellFormed d => d
  | _ => emptyForkData

/-- Merge identity of a node: `(conversationId, turnId, forkGroupId)`. -/
def identOf (n : ForkNode) : String × String × String :=
  (n.conversationId, n.turnId, n.forkGroupId)

/-- Winner between a kept entry `m` and an incoming entry `n` of the same
identity: the incoming entry wins only with a strictly greater
`createdAt`. -/
def resolveNode (m n : ForkNode) : ForkNode :=
  if n.createdAt > m.createdAt then n else m

/-- Modelled from the spec: insert one node into an accumulated collection,
replacing the entry of the same identity in place by the winner, else
appending. -/
def insertMergedNode : List ForkNode → ForkNode → List ForkNode
  | [], n => [n]
  | m :: rest, n =>
    if identOf m = identOf n then resolveNode m n :: rest else m :: insertMergedNode rest n

/-- Modelled from the spec: the union of one conversation's node entries
from the two replicas, local entries first so that an exact `createdAt` tie
keeps the local entry. -/
def mergeNodeLists (localNodes cloudNodes : List ForkNode) : List ForkNode :=
  (localNodes ++ cloudNodes).foldl insertMergedNode []

/-- The composite key `"conversationId:turnId"` of a node. -/
def nodeKey (n : ForkNode) : String := n.conversationId ++ ":" ++ n.turnId

/-- Modelled from the spec: insert one node's composite key into its fork
group's key list, skipping keys already present. -/
def insertGroupKey (gs : List (String × List String)) (n : ForkNode) : List (String × List String) :=
  let l := (lookupA gs n.forkGroupId).getD []
  if nodeKey n ∈ l then gs else setA gs n.forkGroupId (l ++ [nodeKey n])

/-- Modelled from the spec: the `groups` index fully rebuilt from a `nodes`
index by iterating every node. -/
def rebuildGroups (buckets : List (String × List ForkNode)) : List (String × List String) :=
  ((buckets.map Prod.snd).flatten).foldl insertGroupKey []

/-- Modelled from the spec: the core of `mergeForkNodes` on two sanitized
datasets — per-conversation last-writer-wins union of the node entries,
then a full rebuild of the `groups` index. -/
def mergeForkNodesData (localData cloudData : ForkNodesData) : ForkNodesData :=
  let convIds := dedupFirst (keysA localData.nodes ++ keysA cloudData.nodes)
  let nodes := convIds.map (fun c =>
    (c, mergeNodeLists ((lookupA localData.nodes c).getD []) ((lookupA cloudData.nodes c).getD [])))
  ⟨nodes, rebuildGroups nodes⟩

/-- Modelled from the spec: `mergeForkNodes` — sanitize both raw arguments,
then merge. -/
def mergeForkNodes (localIn cloudIn : ForkDataInput) : ForkNodesData :=
  mergeForkNodesData (sanitizeForkData localIn) (sanitizeForkData cloudIn)

/-- All node entries of a dataset, across every conversation bucket. -/
def flattenNodes (d : ForkNodesData) : List ForkNode := (d.nodes.map Prod.snd).flatten

/-- The node entries of a list that carry a given merge identity. -/
def identFilter (l : List ForkNode) (i : String × String × String) : List ForkNode :=
  l.filter (fun n => decide (identOf n = i))

/-- The running winner over a stream of same-identity entries. -/
def mergeRun : Option ForkNode → List ForkNode → Option ForkNode
  | o, [] => o
  | none, n :: rest => mergeRun (some n) rest
  | some m, n :: rest => mergeRun (some (resolveNode m n)) rest

/-- An optional node as a zero- or one-element list. -/
def optList : Option ForkNode → List ForkNode
  | none => []
  | some n => [n]

/-- A well-formed nodes index: bucket keys are distinct and every node sits
in the bucket of its own conversation id. -/
def WellFormedNodes (d : ForkNodesData) : Prop :=
  (keysA d.nodes).Nodup ∧ ∀ p ∈ d.nodes, ∀ n ∈ p.2, n.conversationId = p.1

instance (d : ForkNodesData) : Decidable (WellFormedNodes d) := by
  unfold WellFormedNodes
  infer_instance

-- ==========================================================================
-- Markdown turn composer (markdown.ts)
-- ==========================================================================

/-- One extracted turn, from `markdown.ts`: the user text and an optional
assistant text. -/
structure ForkExtractedTurn where
  user : String
  assistant : Option String
deriving DecidableEq, Repr

/-- The effect of `normalizedTurns[normalizedTurns.length - 1].assistant = ''`
on the copied list: the last turn's assistant text becomes the (present)
empty string. -/
def clearLastAssistant : List ForkExtractedTurn → List ForkExtractedTurn
  | [] => []
  | [t] => [{ t with assistant := some "" }]
  | t :: rest => t :: clearLastAssistant rest

/-- The lines pushed for one turn in `buildForkMarkdown`: a User section,
then an Assistant section only when the assistant text is non-blank after
trimming. -/
def renderTurn (turn : ForkExtractedTurn) : List String :=
  ["### 👤 User", "", turn.user, ""] ++
    match turn.assistant with
    | some a => if trimString a ≠ "" then ["### 🤖 Assistant", "", a, ""] else []
    | none => []

/-- The full `lines` array of `buildForkMarkdown`: title heading, blank
line, then each turn's sections. -/
def forkLines (title : String) (turns : List ForkExtractedTurn) : List String :=
  ("# " ++ (if title = "" then "Untitled" else title)) :: "" :: turns.flatMap renderTurn

/-- `buildForkMarkdown` from `markdown.ts`. -/
def buildForkMarkdown (title : String) (turns : List ForkExtractedTurn)
    (dropLastAssistant : Bool) : String :=
  if turns.isEmpty then ""
  else
    let normalizedTurns := if dropLastAssistant then clearLastAssistant turns else turns
    String.intercalate "\n" (forkLines title normalizedTurns)

/-- Whether the first list occurs at the very front of the second. -/
def leadsWith : List Char → List Char → Bool
  | [], _ => true
  | _ :: _, [] => false
  | a :: as, b :: bs => a == b && leadsWith as bs

/-- Whether the needle occurs contiguously anywhere in the haystack. -/
def charsOccur (needle : List Char) : List Char → Bool
  | [] => leadsWith needle []
  | c :: rest => leadsWith needle (c :: rest) || charsOccur needle rest

/-- Substring occurrence on strings, used to state containment claims about
the rendered markdown. -/
def occursIn (needle hay : String) : Bool := charsOccur needle.data hay.data

-- ==========================================================================
-- Heap model of the copy-then-clear step of buildForkMarkdown
-- ==========================================================================

/-- Writing one turn record at a heap address, modelling mutation of a
JavaScript object through a reference. -/
def writeTurn (h : Nat → ForkExtractedTurn) (a : Nat) (t : ForkExtractedTurn) :
    Nat → ForkExtractedTurn :=
  fun a' => if a' = a then t else h a'

/-- `turns.map((turn) => ({ ...turn }))` in the heap model: copy each
argument record into a fresh address `base`, `base+1`, …, returning the
new heap and the copy addresses. -/
def allocCopies (h : Nat → ForkExtractedTurn) :
    List Nat → Nat → (Nat → ForkExtractedTurn) × List Nat
  | [], _ => (h, [])
  | a :: rest, base =>
    let p := allocCopies (writeTurn h base (h a)) rest (base + 1)
    (p.1, base :: p.2)

/-- Lines 13–16 of `markdown.ts` in the heap model: copy every turn record,
then, when `dropLastAssistant` holds, clear the assistant of the last copy
in place. -/
def normalizeTurnsInHeap (h : Nat → ForkExtractedTurn) (addrs : List Nat) (base : Nat)
    (dropLastAssistant : Bool) : (Nat → ForkExtractedTurn) × List Nat :=
  let p := allocCopies h addrs base
  if dropLastAssistant then
    match p.2.getLast? with
    | some lastAddr => (writeTurn p.1 lastAddr { p.1 lastAddr with assistant := some "" }, p.2)
    | none => p
  else p

-- ==========================================================================
-- Association list and dedupFirst lemmas
-- ==========================================================================

theorem lookupA_setA {α : Type} (m : List (String × α)) (k k' : String) (v : α) :
    lookupA (setA m k v) k' = if k' = k then some v else lookupA m k' := by
  induction m with
  | nil =>
    by_cases h : k' = k
    · subst h
      simp [setA, lookupA]
    · have h2 : ¬(k = k') := fun hh => h hh.symm
      simp [setA, lookupA, h, h2]
  | cons p rest ih =>
    obtain ⟨pk, pv⟩ := p
    by_cases hpk : pk = k
    · subst hpk
      by_cases h : k' = pk
      · subst h
        simp [setA, lookupA]
      · have h2 : ¬(pk = k') := fun hh => h hh.symm
        simp [setA, lookupA, h, h2]
    · by_cases h2 : pk = k'
      · subst h2
        have h3 : ¬(pk = k) := hpk
        simp [setA, lookupA, h3, hpk]
      · simp [setA, lookupA, hpk, h2, ih]

theorem lookupA_eq_none_iff {α : Type} (m : List (String × α)) (k : String) :
    lookupA m k = none ↔ ∀ p ∈ m, p.1 ≠ k := by
  induction m with
  | nil => simp [lookupA]
  | cons p rest ih =>
    obtain ⟨pk, pv⟩ := p
    by_cases h : pk = k <;> simp [lookupA, h, ih]

theorem lookupA_mem {α : Type} (m : List (String × α)) (k : String) (v : α)
    (h : lookupA m k = some v) : (k, v) ∈ m := by
  induction m with
  | nil => simp [lookupA] at h
  | cons p rest ih =>
    obtain ⟨pk, pv⟩ := p
    by_cases hk : pk = k
    · subst hk
      simp [lookupA] at h
      simp [h]
    · simp [lookupA, hk] at h
      exact List.mem_cons_of_mem _ (ih h)

theorem lookupA_key_mem {α : Type} (m : List (String × α)) (k : String) (v : α)
    (h : lookupA m k = some v) : k ∈ keysA m := by
  have := lookupA_mem m k v h
  exact List.mem_map.mpr ⟨(k, v), this, rfl⟩

theorem keysA_setA {α : Type} (m : List (String × α)) (k : String) (v : α) :
    keysA (setA m k v) = if k ∈ keysA m then keysA m else keysA m ++ [k] := by
  induction m with
  | nil => simp [setA, keysA]
  | cons p rest ih =>
    obtain ⟨pk, pv⟩ := p
    by_cases h : pk = k
    · subst h
      simp [setA, keysA]
    · have hne : ¬(k = pk) := fun hh => h hh.symm
      have hsa : setA ((pk, pv) :: rest) k v = (pk, pv) :: setA rest k v := by
        simp [setA, h]
      by_cases hm : k ∈ keysA rest
      · have hmem : k ∈ keysA ((pk, pv) :: rest) := by
          simp only [keysA, List.map_cons, List.mem_cons]
          exact Or.inr hm
        rw [hsa, if_pos hmem]
        simp only [keysA, List.map_cons]
        simp only [keysA] at ih hm
        rw [ih, if_pos hm]
      · have hmem : k ∉ keysA ((pk, pv) :: rest) := by
          simp only [keysA, List.map_cons, List.mem_cons]
          rintro (hc | hc)
          · exact hne hc
          · exact hm hc
        rw [hsa, if_neg hmem]
        simp only [keysA, List.map_cons]
        simp only [keysA] at ih hm
        rw [ih, if_neg hm]
        simp

theorem mem_setA_of_ne {α : Type} (m : List (String × α)) (k : String) (v : α)
    (p : String × α) (hp : p ∈ m) (hne : p.1 ≠ k) : p ∈ setA m k v := by
  induction m with
  | nil => simp at hp
  | cons q rest ih =>
    obtain ⟨qk, qv⟩ := q
    by_cases h : qk = k
    · subst h
      rcases List.mem_cons.mp hp with h1 | h1
      · exact absurd (by rw [h1]) hne
      · simp [setA]
        right
        exact h1
    · rcases List.mem_cons.mp hp with h1 | h1
      · simp [setA, h, h1]
      · simp [setA, h]
        right
        exact ih h1

theorem self_mem_setA {α : Type} (m : List (String × α)) (k : String) (v : α) :
    (k, v) ∈ setA m k v := by
  induction m with
  | nil => simp [setA]
  | cons q rest ih =>
    obtain ⟨qk, qv⟩ := q
    by_cases h : qk = k
    · subst h
      simp [setA]
    · simp [setA, h]
      right
      exact ih

theorem mem_setA_elim {α : Type} (m : List (String × α)) (k : String) (v : α)
    (hnd : (keysA m).Nodup)
    (p : String × α) (hp : p ∈ setA m k v) : p = (k, v) ∨ (p ∈ m ∧ p.1 ≠ k) := by
  induction m with
  | nil =>
    simp [setA] at hp
    exact Or.inl hp
  | cons q rest ih =>
    obtain ⟨qk, qv⟩ := q
    have hnd' : (keysA rest).Nodup := (List.nodup_cons.mp hnd).2
    by_cases h : qk = k
    · subst h
      have hk : qk ∉ keysA rest := (List.nodup_cons.mp hnd).1
      simp [setA] at hp
      rcases hp with h1 | h1
      · exact Or.inl (by rw [h1])
      · refine Or.inr ⟨List.mem_cons_of_mem _ h1, fun hpk => ?_⟩
        exact hk (hpk ▸ List.mem_map.mpr ⟨p, h1, rfl⟩)
    · simp [setA, h] at hp
      rcases hp with h1 | h1
      · refine Or.inr ⟨by simp [h1], ?_⟩
        rw [h1]
        exact h
      · rcases ih hnd' h1 with h2 | h2
        · exact Or.inl h2
        · exact Or.inr ⟨List.mem_cons_of_mem _ h2.1, h2.2⟩

theorem dedupFirst_core_nodup (l : List String) :
    ∀ acc : List String, acc.Nodup →
      (l.foldl (fun acc x => if x ∈ acc then acc else acc ++ [x]) acc).Nodup := by
  induction l with
  | nil => intro acc h; exact h
  | cons x rest ih =>
    intro acc h
    by_cases hx : x ∈ acc
    · simpa [hx] using ih acc h
    · have : (acc ++ [x]).Nodup := by
        simp [List.nodup_append, h, hx]
      simpa [hx] using ih (acc ++ [x]) this

theorem dedupFirst_core_mem (l : List String) :
    ∀ acc y, (y ∈ l.foldl (fun acc x => if x ∈ acc then acc else acc ++ [x]) acc
      ↔ y ∈ acc ∨ y ∈ l) := by
  induction l with
  | nil => intro acc y; simp
  | cons x rest ih =>
    intro acc y
    by_cases hx : x ∈ acc
    · simp only [List.foldl_cons, if_pos hx]
      rw [ih]
      constructor
      · rintro (h | h)
        · exact Or.inl h
        · exact Or.inr (List.mem_cons_of_mem _ h)
      · rintro (h | h)
        · exact Or.inl h
        · rcases List.mem_cons.mp h with h1 | h1
          · exact Or.inl (h1 ▸ hx)
          · exact Or.inr h1
    · simp only [List.foldl_cons, if_neg hx]
      rw [ih]
      simp only [List.mem_append, List.mem_singleton, List.mem_cons]
      tauto

theorem dedupFirst_nodup (l : List String) : (dedupFirst l).Nodup :=
  dedupFirst_core_nodup l [] List.nodup_nil

theorem mem_dedupFirst (l : List String) (y : String) : y ∈ dedupFirst l ↔ y ∈ l := by
  unfold dedupFirst
  rw [dedupFirst_core_mem]
  simp

theorem dedupFirst_ne_nil (l : List String) (h : l ≠ []) : dedupFirst l ≠ [] := by
  obtain ⟨x, xs, rfl⟩ := List.exists_cons_of_ne_nil h
  intro hcon
  have : x ∈ dedupFirst (x :: xs) := (mem_dedupFirst _ _).mpr (List.mem_cons_self _ _)
  rw [hcon] at this
  simp at this

-- ==========================================================================
-- C10: makeStableTurnId clamps at zero
-- ==========================================================================

/-- C10: `makeStableTurnId` is total over the integers and clamps at zero:
a negative index yields `"u-0"`, a non-negative index yields `"u-"`
followed by its decimal rendering. -/
theorem makeStableTurnId_clamps (index : Int) :
    (index < 0 → makeStableTurnId index = "u-0")
    ∧ (0 ≤ index → makeStableTurnId index = "u-" ++ toString index) := by
  constructor
  · intro h
    unfold makeStableTurnId
    rw [max_eq_left (le_of_lt h)]
    rfl
  · intro h
    unfold makeStableTurnId
    rw [max_eq_right h]

/-- C10 witness: the clamping theorem evaluated at `-4` and at `11`. -/
theorem makeStableTurnId_clamps_instance :
    makeStableTurnId (-4) = "u-0" ∧ makeStableTurnId 11 = "u-" ++ toString (11 : Int) :=
  ⟨(makeStableTurnId_clamps (-4)).1 (by decide), (makeStableTurnId_clamps 11).2 (by decide)⟩

-- ==========================================================================
-- C3: absent or malformed merge inputs degrade to the empty dataset
-- ==========================================================================

/-- C3: `mergeForkNodes` treats an absent (`null`/`undefined`) or malformed
argument as the empty dataset, and merging two absent replicas returns the
empty dataset; as a total Lean function it never fails. -/
theorem mergeForkNodes_absent_inputs :
    (∀ b, mergeForkNodes .absent b = mergeForkNodes (.wellFormed emptyForkData) b)
    ∧ (∀ b, mergeForkNodes .malformed b = mergeForkNodes (.wellFormed emptyForkData) b)
    ∧ (∀ a, mergeForkNodes a .absent = mergeForkNodes a (.wellFormed emptyForkData))
    ∧ (∀ a, mergeForkNodes a .malformed = mergeForkNodes a (.wellFormed emptyForkData))
    ∧ mergeForkNodes .absent .absent = emptyForkData :=
  ⟨fun _ => rfl, fun _ => rfl, fun _ => rfl, fun _ => rfl, rfl⟩

-- ==========================================================================
-- C8: normalizeTurnId
-- ==========================================================================

theorem takeDigits_append_dash (ds tl : List Char) (hdig : ∀ c ∈ ds, c.isDigit = true) :
    takeDigits (ds ++ '-' :: tl) = (ds, '-' :: tl) := by
  induction ds with
  | nil => simp [takeDigits]
  | cons d ds' ih =>
    have hd : d.isDigit = true := hdig d (List.mem_cons_self _ _)
    have ih' := ih (fun c hc => hdig c (List.mem_cons_of_mem _ hc))
    simp [takeDigits, hd, ih']

theorem matchUserTurn_shape (ds tl : List Char) (hne : ds ≠ [])
    (hdig : ∀ c ∈ ds, c.isDigit = true) (htl : tl ≠ [])
    (hterm : ∀ c ∈ tl, isLineTerminator c = false) :
    matchUserTurn ('u' :: '-' :: (ds ++ '-' :: tl)) = some ds := by
  have h1 := takeDigits_append_dash ds tl hdig
  have h2 : ds.isEmpty = false := by
    cases ds with
    | nil => exact absurd rfl hne
    | cons a b => rfl
  simp [matchUserTurn, h1, h2, htl]
  exact hterm

theorem matchUserTurn_eq_none (cs : List Char) (h : hasUserTurnStart cs = false) :
    matchUserTurn cs = none := by
  match cs with
  | [] => rfl
  | [a] => rfl
  | a :: b :: rest =>
    by_cases hab : a = 'u' ∧ b = '-'
    · obtain ⟨ha, hb⟩ := hab
      subst ha
      subst hb
      match rest with
      | [] => rfl
      | c :: rs =>
        have hc : c.isDigit = false := by
          simpa [hasUserTurnStart] using h
        simp [matchUserTurn, takeDigits, hc]
    · simp [matchUserTurn, hab]

/-- C8 counterexample: the claim says a string with no leading
`u-<digits>` shape is returned exactly equal to the input, but
`normalizeTurnId " x"` returns the trimmed `"x"`, not `" x"`. -/
theorem normalizeTurnId_trims_input :
    hasUserTurnStart (" x".data) = false
    ∧ normalizeTurnId " x" ≠ " x"
    ∧ normalizeTurnId " x" = "x" := by
  refine ⟨by decide, by decide, by decide⟩

/-- C8 amended: `normalizeTurnId` first trims ECMAScript whitespace from
both ends; a trimmed string of the shape `u-<digits>-<suffix>` with a
non-empty suffix containing no line terminator maps to `u-<digits>` (the
regex `.` never matches a line terminator), and a trimmed string that
does not start with `u-<digit>` is returned as the trimmed input. -/
theorem normalizeTurnId_amended (s : String) (ds tl : List Char) :
    (ds ≠ [] → (∀ c ∈ ds, c.isDigit = true) → tl ≠ [] →
      (∀ c ∈ tl, isLineTerminator c = false) →
      (trimString s).data = 'u' :: '-' :: (ds ++ '-' :: tl) →
      normalizeTurnId s = "u-" ++ String.mk ds)
    ∧ (hasUserTurnStart (trimString s).data = false → normalizeTurnId s = trimString s) := by
  constructor
  · intro h1 h2 h3 hterm h4
    simp only [normalizeTurnId]
    rw [h4, matchUserTurn_shape ds tl h1 h2 h3 hterm]
  · intro h
    simp only [normalizeTurnId]
    rw [matchUserTurn_eq_none _ h]

/-- C8 witness: the amended theorem evaluated at `" u-3-x "` (legacy
suffix stripped after trimming) and at `"abc"` (returned trimmed). -/
theorem normalizeTurnId_amended_instance :
    normalizeTurnId " u-3-x " = "u-" ++ String.mk ['3']
    ∧ normalizeTurnId "abc" = trimString "abc" :=
  ⟨(normalizeTurnId_amended " u-3-x " ['3'] ['x']).1 (by decide) (by decide) (by decide)
      (by decide) (by decide),
   (normalizeTurnId_amended "abc" [] []).2 (by decide)⟩

-- ==========================================================================
-- C7: buildForkMarkdown with dropLastAssistant
-- ==========================================================================

theorem clearLastAssistant_mem (turns : List ForkExtractedTurn) (t' : ForkExtractedTurn)
    (h : t' ∈ clearLastAssistant turns) :
    (∃ t ∈ turns, t'.user = t.user)
    ∧ (t'.assistant = some "" ∨ ∃ t ∈ turns.dropLast, t'.assistant = t.assistant) := by
  induction turns with
  | nil => simp [clearLastAssistant] at h
  | cons t rest ih =>
    cases rest with
    | nil =>
      simp [clearLastAssistant] at h
      subst h
      exact ⟨⟨t, by simp, rfl⟩, Or.inl rfl⟩
    | cons t2 rest2 =>
      have hcl : clearLastAssistant (t :: t2 :: rest2) = t :: clearLastAssistant (t2 :: rest2) :=
        rfl
      rw [hcl] at h
      have hdl : (t :: t2 :: rest2).dropLast = t :: (t2 :: rest2).dropLast := rfl
      rcases List.mem_cons.mp h with h1 | h1
      · subst h1
        refine ⟨⟨t', by simp, rfl⟩, Or.inr ⟨t', ?_, rfl⟩⟩
        rw [hdl]
        exact List.mem_cons_self _ _
      · obtain ⟨⟨t0, ht0, hu⟩, ha⟩ := ih h1
        refine ⟨⟨t0, List.mem_cons_of_mem _ ht0, hu⟩, ?_⟩
        rcases ha with ha | ⟨t1, ht1, he⟩
        · exact Or.inl ha
        · refine Or.inr ⟨t1, ?_, he⟩
          rw [hdl]
          exact List.mem_cons_of_mem _ ht1

theorem renderTurn_mem (t' : ForkExtractedTurn) (c : String) (h : c ∈ renderTurn t') :
    c = "### 👤 User" ∨ c = "" ∨ c = t'.user
    ∨ (∃ a, t'.assistant = some a ∧ (c = "### 🤖 Assistant" ∨ c = a)) := by
  unfold renderTurn at h
  rcases List.mem_append.mp h with h1 | h1
  · simp at h1
    tauto
  · match ha : t'.assistant with
    | none => rw [ha] at h1; simp at h1
    | some a =>
      rw [ha] at h1
      by_cases hb : trimString a ≠ ""
      · simp [hb] at h1
        have h2 : c = "### 🤖 Assistant" ∨ c = "" ∨ c = a := by tauto
        rcases h2 with h2 | h2 | h2
        · exact Or.inr (Or.inr (Or.inr ⟨a, rfl, Or.inl h2⟩))
        · exact Or.inr (Or.inl h2)
        · exact Or.inr (Or.inr (Or.inr ⟨a, rfl, Or.inr h2⟩))
      · simp [hb] at h1

/-- C7 counterexample: with title `"T"` and the single turn
`{user := "hi", assistant := "User"}`, the final assistant content
`"User"` is not a substring of the title (and there is no earlier turn),
yet it occurs in the drop-last rendering through the fixed heading line
`### 👤 User` — refuting the claim as stated. -/
theorem buildForkMarkdown_scaffold_collision :
    occursIn "User" (buildForkMarkdown "T" [⟨"hi", some "User"⟩] true) = true
    ∧ occursIn "User" "T" = false
    ∧ occursIn "User" "hi" = false := by
  refine ⟨by decide, by decide, by decide⟩

/-- C7 amended: the rendering of `buildForkMarkdown(title, turns, true)`
is the join of a line list that never contains the final turn's original
assistant content as an element, provided that content differs from the
title heading line, the empty line, the two fixed section headings, every
turn's user text, and every earlier turn's assistant text; and the empty
turns list yields the empty string. -/
theorem buildForkMarkdown_drop_last_amended (title : String)
    (turns : List ForkExtractedTurn) (c : String) (h : turns ≠ [])
    (hT : c ≠ "# " ++ (if title = "" then "Untitled" else title))
    (hE : c ≠ "") (hU : c ≠ "### 👤 User") (hA : c ≠ "### 🤖 Assistant")
    (huser : ∀ t ∈ turns, c ≠ t.user)
    (hassist : ∀ t ∈ turns.dropLast, t.assistant ≠ some c) :
    c ∉ forkLines title (clearLastAssistant turns)
    ∧ buildForkMarkdown title turns true
        = String.intercalate "\n" (forkLines title (clearLastAssistant turns))
    ∧ buildForkMarkdown title [] true = "" := by
  refine ⟨?_, ?_, rfl⟩
  · intro hmem
    unfold forkLines at hmem
    rcases List.mem_cons.mp hmem with h1 | h1
    · exact hT h1
    rcases List.mem_cons.mp h1 with h2 | h2
    · exact hE h2
    obtain ⟨t', ht', hc⟩ := List.mem_flatMap.mp h2
    obtain ⟨⟨t0, ht0, hu⟩, ha⟩ := clearLastAssistant_mem turns t' ht'
    rcases renderTurn_mem t' c hc with hx | hx | hx | ⟨a, hsome, hx⟩
    · exact hU hx
    · exact hE hx
    · exact huser t0 ht0 (hx.trans hu)
    · rcases hx with hx | hx
      · exact hA hx
      · subst hx
        rcases ha with ha | ⟨t1, ht1, he⟩
        · rw [hsome] at ha
          exact hE (Option.some.inj ha)
        · rw [hsome] at he
          exact hassist t1 ht1 he.symm
  · obtain ⟨x, xs, rfl⟩ := List.exists_cons_of_ne_nil h
    rfl

/-- C7 witness: the amended theorem at the spec scenario — title `"T"`,
turns `[{user:"u1",assistant:"a1"},{user:"u2",assistant:"a2"}]`, final
content `"a2"`. -/
theorem buildForkMarkdown_drop_last_instance :
    ("a2" ∉ forkLines "T" (clearLastAssistant [⟨"u1", some "a1"⟩, ⟨"u2", some "a2"⟩])
      ∧ buildForkMarkdown "T" [⟨"u1", some "a1"⟩, ⟨"u2", some "a2"⟩] true
          = String.intercalate "\n"
              (forkLines "T" (clearLastAssistant [⟨"u1", some "a1"⟩, ⟨"u2", some "a2"⟩]))
      ∧ buildForkMarkdown "T" [] true = "") :=
  buildForkMarkdown_drop_last_amended "T" [⟨"u1", some "a1"⟩, ⟨"u2", some "a2"⟩] "a2"
    (by decide) (by decide) (by decide) (by decide) (by decide)
    (by decide) (by decide)

-- ==========================================================================
-- C9: the copy-then-clear step never mutates the argument records
-- ==========================================================================

theorem getLast?_mem_list {α : Type} (l : List α) (a : α) (h : l.getLast? = some a) : a ∈ l := by
  obtain ⟨hne, heq⟩ := List.mem_getLast?_eq_getLast (show a ∈ l.getLast? by rw [h]; rfl)
  exact heq ▸ List.getLast_mem hne

theorem allocCopies_preserve (addrs : List Nat) :
    ∀ (h : Nat → ForkExtractedTurn) (base a : Nat), a < base →
      (allocCopies h addrs base).1 a = h a := by
  induction addrs with
  | nil => intros; rfl
  | cons x rest ih =>
    intro h base a ha
    show (allocCopies (writeTurn h base (h x)) rest (base + 1)).1 a = h a
    rw [ih (writeTurn h base (h x)) (base + 1) a (Nat.lt_succ_of_lt ha)]
    unfold writeTurn
    rw [if_neg (Nat.ne_of_lt ha)]

theorem allocCopies_addr_ge (addrs : List Nat) :
    ∀ (h : Nat → ForkExtractedTurn) (base c : Nat),
      c ∈ (allocCopies h addrs base).2 → base ≤ c := by
  induction addrs with
  | nil =>
    intro h base c hc
    simp [allocCopies] at hc
  | cons x rest ih =>
    intro h base c hc
    have hc' : c ∈ base :: (allocCopies (writeTurn h base (h x)) rest (base + 1)).2 := hc
    rcases List.mem_cons.mp hc' with h1 | h1
    · exact h1 ▸ Nat.le_refl _
    · exact Nat.le_of_succ_le (ih _ _ _ h1)

theorem allocCopies_map (addrs : List Nat) :
    ∀ (h : Nat → ForkExtractedTurn) (base : Nat), (∀ a ∈ addrs, a < base) →
      (allocCopies h addrs base).2.map (allocCopies h addrs base).1 = addrs.map h := by
  induction addrs with
  | nil => intros; rfl
  | cons x rest ih =>
    intro h base hb
    have hx : x < base := hb x (List.mem_cons_self _ _)
    have hb' : ∀ a ∈ rest, a < base + 1 :=
      fun a ha => Nat.lt_succ_of_lt (hb a (List.mem_cons_of_mem _ ha))
    show ((allocCopies (writeTurn h base (h x)) rest (base + 1)).1 base)
        :: (allocCopies (writeTurn h base (h x)) rest (base + 1)).2.map
            (allocCopies (writeTurn h base (h x)) rest (base + 1)).1
      = h x :: rest.map h
    congr 1
    · rw [allocCopies_preserve rest _ (base + 1) base (Nat.lt_succ_self base)]
      unfold writeTurn
      rw [if_pos rfl]
    · rw [ih (writeTurn h base (h x)) (base + 1) hb']
      apply List.map_congr_left
      intro a ha
      unfold writeTurn
      rw [if_neg (Nat.ne_of_lt (hb a (List.mem_cons_of_mem _ ha)))]

theorem normalizeTurnsInHeap_preserve (addrs : List Nat) (h : Nat → ForkExtractedTurn)
    (base : Nat) (dla : Bool) (a : Nat) (ha : a < base) :
    (normalizeTurnsInHeap h addrs base dla).1 a = h a := by
  unfold normalizeTurnsInHeap
  cases dla with
  | false =>
    simpa using allocCopies_preserve addrs h base a ha
  | true =>
    simp only [if_pos]
    match hgl : (allocCopies h addrs base).2.getLast? with
    | none =>
      simpa using allocCopies_preserve addrs h base a ha
    | some lastAddr =>
      have hge : base ≤ lastAddr :=
        allocCopies_addr_ge addrs h base lastAddr (getLast?_mem_list _ _ hgl)
      have hne : a ≠ lastAddr := Nat.ne_of_lt (lt_of_lt_of_le ha hge)
      show writeTurn (allocCopies h addrs base).1 lastAddr _ a = h a
      unfold writeTurn
      rw [if_neg hne]
      exact allocCopies_preserve addrs h base a ha

theorem normalizeTurnsInHeap_map_clear (addrs : List Nat) :
    ∀ (h : Nat → ForkExtractedTurn) (base : Nat), (∀ a ∈ addrs, a < base) →
      (normalizeTurnsInHeap h addrs base true).2.map (normalizeTurnsInHeap h addrs base true).1
        = clearLastAssistant (addrs.map h) := by
  induction addrs with
  | nil => intros; rfl
  | cons x rest ih =>
    intro h base hb
    have hx : x < base := hb x (List.mem_cons_self _ _)
    cases rest with
    | nil =>
      simp [normalizeTurnsInHeap, allocCopies, writeTurn, clearLastAssistant]
    | cons y rest2 =>
      have hb' : ∀ a ∈ y :: rest2, a < base + 1 :=
        fun a ha => Nat.lt_succ_of_lt (hb a (List.mem_cons_of_mem _ ha))
      have hq2 : (allocCopies (writeTurn h base (h x)) (y :: rest2) (base + 1)).2
          = (base + 1)
            :: (allocCopies (writeTurn (writeTurn h base (h x)) (base + 1)
                  ((writeTurn h base (h x)) y)) rest2 (base + 2)).2 := rfl
      obtain ⟨L, hL⟩ : ∃ L,
          (allocCopies (writeTurn h base (h x)) (y :: rest2) (base + 1)).2.getLast? = some L := by
        rw [hq2]
        cases hgl : ((base + 1)
            :: (allocCopies (writeTurn (writeTurn h base (h x)) (base + 1)
                  ((writeTurn h base (h x)) y)) rest2 (base + 2)).2).getLast? with
        | none =>
          rw [List.getLast?_eq_none_iff] at hgl
          simp at hgl
        | some L => exact ⟨L, rfl⟩
      have hgeL : base + 1 ≤ L :=
        allocCopies_addr_ge (y :: rest2) (writeTurn h base (h x)) (base + 1) L
          (getLast?_mem_list _ _ hL)
      have hglc : ((allocCopies h (x :: y :: rest2) base).2).getLast? = some L := by
        show (base :: (allocCopies (writeTurn h base (h x)) (y :: rest2) (base + 1)).2).getLast?
          = some L
        rw [hq2, List.getLast?_cons_cons, ← hq2]
        exact hL
      have e1 : normalizeTurnsInHeap h (x :: y :: rest2) base true
          = (writeTurn (allocCopies (writeTurn h base (h x)) (y :: rest2) (base + 1)).1 L
              { (allocCopies (writeTurn h base (h x)) (y :: rest2) (base + 1)).1 L with
                  assistant := some "" },
             base :: (allocCopies (writeTurn h base (h x)) (y :: rest2) (base + 1)).2) := by
        show (match (allocCopies h (x :: y :: rest2) base).2.getLast? with
          | some lastAddr =>
            (writeTurn (allocCopies h (x :: y :: rest2) base).1 lastAddr
              { (allocCopies h (x :: y :: rest2) base).1 lastAddr with assistant := some "" },
             (allocCopies h (x :: y :: rest2) base).2)
          | none => allocCopies h (x :: y :: rest2) base) = _
        rw [hglc]
        rfl
      have e2 : normalizeTurnsInHeap (writeTurn h base (h x)) (y :: rest2) (base + 1) true
          = (writeTurn (allocCopies (writeTurn h base (h x)) (y :: rest2) (base + 1)).1 L
              { (allocCopies (writeTurn h base (h x)) (y :: rest2) (base + 1)).1 L with
                  assistant := some "" },
             (allocCopies (writeTurn h base (h x)) (y :: rest2) (base + 1)).2) := by
        show (match (allocCopies (writeTurn h base (h x)) (y :: rest2) (base + 1)).2.getLast? with
          | some lastAddr =>
            (writeTurn (allocCopies (writeTurn h base (h x)) (y :: rest2) (base + 1)).1 lastAddr
              { (allocCopies (writeTurn h base (h x)) (y :: rest2) (base + 1)).1 lastAddr with
                  assistant := some "" },
             (allocCopies (writeTurn h base (h x)) (y :: rest2) (base + 1)).2)
          | none => allocCopies (writeTurn h base (h x)) (y :: rest2) (base + 1)) = _
        rw [hL]
      have hIH := ih (writeTurn h base (h x)) (base + 1) hb'
      rw [e2] at hIH
      rw [e1]
      simp only [List.map_cons]
      have hcl : clearLastAssistant (h x :: h y :: rest2.map h)
          = h x :: clearLastAssistant (h y :: rest2.map h) := rfl
      show _ :: _ = clearLastAssistant (h x :: h y :: rest2.map h)
      rw [hcl]
      congr 1
      · show writeTurn (allocCopies (writeTurn h base (h x)) (y :: rest2) (base + 1)).1 L _ base
          = h x
        unfold writeTurn
        rw [if_neg (Nat.ne_of_lt (lt_of_lt_of_le (Nat.lt_succ_self base) hgeL))]
        rw [allocCopies_preserve (y :: rest2) _ (base + 1) base (Nat.lt_succ_self base)]
        rw [if_pos rfl]
      · rw [hIH]
        have hmaps : (y :: rest2).map (writeTurn h base (h x)) = (y :: rest2).map h := by
          apply List.map_congr_left
          intro a ha
          unfold writeTurn
          rw [if_neg (Nat.ne_of_lt (hb a (List.mem_cons_of_mem _ ha)))]
        rw [hmaps]
        rfl

/-- C9: the copy-then-clear normalization step of `buildForkMarkdown`, in
the heap model, never mutates the argument records: every input address
still holds its original record afterwards, while the fresh copies hold
exactly the turns with the last assistant cleared (when requested). -/
theorem normalizeTurns_no_argument_mutation (h : Nat → ForkExtractedTurn) (addrs : List Nat)
    (base : Nat) (dropLastAssistant : Bool) (hb : ∀ a ∈ addrs, a < base) :
    (∀ a ∈ addrs, (normalizeTurnsInHeap h addrs base dropLastAssistant).1 a = h a)
    ∧ (normalizeTurnsInHeap h addrs base dropLastAssistant).2.map
        (normalizeTurnsInHeap h addrs base dropLastAssistant).1
      = (if dropLastAssistant then clearLastAssistant (addrs.map h) else addrs.map h) := by
  constructor
  · intro a ha
    exact normalizeTurnsInHeap_preserve addrs h base dropLastAssistant a (hb a ha)
  · cases dropLastAssistant with
    | false =>
      simpa using allocCopies_map addrs h base hb
    | true =>
      simpa using normalizeTurnsInHeap_map_clear addrs h base hb

/-- C9 witness: the no-mutation theorem on a concrete two-record heap with
`dropLastAssistant = true`. -/
theorem normalizeTurns_no_argument_mutation_instance :
    (∀ a ∈ [0, 1],
      (normalizeTurnsInHeap
        (fun a => if a = 0 then ⟨"q1", some "ans1"⟩ else ⟨"q2", some "ans2"⟩) [0, 1] 2 true).1 a
        = (fun a => if a = 0 then ⟨"q1", some "ans1"⟩ else ⟨"q2", some "ans2"⟩) a)
    ∧ (normalizeTurnsInHeap
        (fun a => if a = 0 then ⟨"q1", some "ans1"⟩ else ⟨"q2", some "ans2"⟩) [0, 1] 2 true).2.map
        (normalizeTurnsInHeap
          (fun a => if a = 0 then ⟨"q1", some "ans1"⟩ else ⟨"q2", some "ans2"⟩) [0, 1] 2 true).1
      = (if true then
          clearLastAssistant
            ([0, 1].map (fun a => if a = 0 then ⟨"q1", some "ans1"⟩ else ⟨"q2", some "ans2"⟩))
         else
          [0, 1].map (fun a => if a = 0 then ⟨"q1", some "ans1"⟩ else ⟨"q2", some "ans2"⟩)) :=
  normalizeTurns_no_argument_mutation
    (fun a => if a = 0 then ⟨"q1", some "ans1"⟩ else ⟨"q2", some "ans2"⟩) [0, 1] 2 true
    (by decide)

-- ==========================================================================
-- C4 and C5: resolveForkPlan
-- ==========================================================================

theorem resolveForkPlan_eq (conversationId turnId : String) (conversationNodes : List ForkNode)
    (groups : List (String × List ForkNode)) (createForkGroupId : Unit → String)
    (g0 : String) (grest : List String)
    (hg : dedupFirst ((conversationNodes.filter
        (fun node => normalizeTurnId node.turnId == normalizeTurnId turnId)).map
        (fun node => node.forkGroupId)) = g0 :: grest) :
    resolveForkPlan conversationId turnId conversationNodes groups createForkGroupId
      = { forkGroupId := (g0 :: grest).foldl
            (fun best g =>
              if (groupNodesOf groups g).length > (groupNodesOf groups best).length then g
              else best) g0,
          sourceForkIndex :=
            (((groupNodesOf groups ((g0 :: grest).foldl
                (fun best g =>
                  if (groupNodesOf groups g).length > (groupNodesOf groups best).length then g
                  else best) g0)).find? (fun node =>
                    node.conversationId == conversationId
                      && normalizeTurnId node.turnId == normalizeTurnId turnId)).map
              (fun node => node.forkIndex)).getD 0,
          nextForkIndex := (groupNodesOf groups ((g0 :: grest).foldl
              (fun best g =>
                if (groupNodesOf groups g).length > (groupNodesOf groups best).length then g
                else best) g0)).foldl (fun m node => max m node.forkIndex) 0 + 1 } := by
  simp only [resolveForkPlan]
  rw [hg]

theorem foldl_argmax_split (f : String → Nat) :
    ∀ (l : List String) (b : String),
      (l.foldl (fun best g => if f g > f best then g else best) b = b ∧ ∀ g ∈ l, f g ≤ f b)
      ∨ (∃ pre post,
          l = pre ++ (l.foldl (fun best g => if f g > f best then g else best) b) :: post
          ∧ f b < f (l.foldl (fun best g => if f g > f best then g else best) b)
          ∧ (∀ g ∈ pre, f g < f (l.foldl (fun best g => if f g > f best then g else best) b))
          ∧ (∀ g ∈ post, f g ≤ f (l.foldl (fun best g => if f g > f best then g else best) b))) := by
  intro l
  induction l with
  | nil =>
    intro b
    left
    exact ⟨rfl, by simp⟩
  | cons x rest ih =>
    intro b
    by_cases hx : f x > f b
    · have hred : (x :: rest).foldl (fun best g => if f g > f best then g else best) b
          = rest.foldl (fun best g => if f g > f best then g else best) x := by
        rw [List.foldl_cons, if_pos hx]
      rcases ih x with ⟨heq, hle⟩ | ⟨pre, post, hsplit, hlt, hpre, hpost⟩
      · right
        refine ⟨[], rest, ?_, ?_, by simp, ?_⟩
        · rw [hred, heq]
          rfl
        · rw [hred, heq]
          exact hx
        · intro g hg
          rw [hred, heq]
          exact hle g hg
      · right
        refine ⟨x :: pre, post, ?_, ?_, ?_, ?_⟩
        · rw [hred]
          conv_lhs => rw [hsplit]
          rfl
        · rw [hred]
          exact lt_trans hx hlt
        · intro g hg
          rw [hred]
          rcases List.mem_cons.mp hg with h1 | h1
          · rw [h1]
            exact hlt
          · exact hpre g h1
        · intro g hg
          rw [hred]
          exact hpost g hg
    · have hred : (x :: rest).foldl (fun best g => if f g > f best then g else best) b
          = rest.foldl (fun best g => if f g > f best then g else best) b := by
        rw [List.foldl_cons, if_neg hx]
      rcases ih b with ⟨heq, hle⟩ | ⟨pre, post, hsplit, hlt, hpre, hpost⟩
      · left
        constructor
        · rw [hred]
          exact heq
        · intro g hg
          rcases List.mem_cons.mp hg with h1 | h1
          · rw [h1]
            exact Nat.le_of_not_lt hx
          · exact hle g h1
      · right
        refine ⟨x :: pre, post, ?_, ?_, ?_, ?_⟩
        · rw [hred]
          conv_lhs => rw [hsplit]
          rfl
        · rw [hred]
          exact hlt
        · intro g hg
          rw [hred]
          rcases List.mem_cons.mp hg with h1 | h1
          · rw [h1]
            exact lt_of_le_of_lt (Nat.le_of_not_lt hx) hlt
          · exact hpre g h1
        · intro g hg
          rw [hred]
          exact hpost g hg

/-- C4: when at least one known node matches the normalized turn id,
`resolveForkPlan` returns the group id, among those referenced by the
matching nodes in first-occurrence order, whose node list in the groups
record is largest — every group id listed before it is strictly smaller,
every one after it is no larger (so equal sizes keep the first
encountered). -/
theorem resolveForkPlan_selects_largest_group (conversationId turnId : String)
    (conversationNodes : List ForkNode) (groups : List (String × List ForkNode))
    (createForkGroupId : Unit → String)
    (hne : conversationNodes.filter
        (fun node => normalizeTurnId node.turnId == normalizeTurnId turnId) ≠ []) :
    ∃ pre post,
      dedupFirst ((conversationNodes.filter
          (fun node => normalizeTurnId node.turnId == normalizeTurnId turnId)).map
          (fun node => node.forkGroupId))
        = pre ++ (resolveForkPlan conversationId turnId conversationNodes groups
              createForkGroupId).forkGroupId :: post
      ∧ (∀ g ∈ pre, (groupNodesOf groups g).length
          < (groupNodesOf groups (resolveForkPlan conversationId turnId conversationNodes groups
              createForkGroupId).forkGroupId).length)
      ∧ (∀ g ∈ post, (groupNodesOf groups g).length
          ≤ (groupNodesOf groups (resolveForkPlan conversationId turnId conversationNodes groups
              createForkGroupId).forkGroupId).length) := by
  have hmapne : (conversationNodes.filter
      (fun node => normalizeTurnId node.turnId == normalizeTurnId turnId)).map
      (fun node => node.forkGroupId) ≠ [] := by
    obtain ⟨x, xs, hx⟩ := List.exists_cons_of_ne_nil hne
    rw [hx]
    simp
  obtain ⟨g0, grest, hg⟩ := List.exists_cons_of_ne_nil (dedupFirst_ne_nil _ hmapne)
  have hplan := resolveForkPlan_eq conversationId turnId conversationNodes groups
    createForkGroupId g0 grest hg
  have hfg : (resolveForkPlan conversationId turnId conversationNodes groups
      createForkGroupId).forkGroupId
      = (g0 :: grest).foldl
          (fun best g =>
            if (groupNodesOf groups g).length > (groupNodesOf groups best).length then g
            else best) g0 := by
    rw [hplan]
  rw [hg, hfg]
  rcases foldl_argmax_split (fun g => (groupNodesOf groups g).length) (g0 :: grest) g0 with
    ⟨heq, hle⟩ | ⟨pre, post, hsplit, _, hpre, hpost⟩
  · refine ⟨[], grest, ?_, by simp, ?_⟩
    · rw [heq]
      rfl
    · intro g hgm
      rw [heq]
      exact hle g (List.mem_cons_of_mem _ hgm)
  · exact ⟨pre, post, hsplit, hpre, hpost⟩

/-- C4 witness: the largest-group selection theorem on a concrete
conversation where turn `u-0` is referenced by a one-node group `ga` and a
two-node group `gb`. -/
theorem resolveForkPlan_selects_largest_group_instance :
    ∃ pre post,
      dedupFirst ((([mkForkNode "u-0" "c1" "ga" 0 1,
            mkForkNode "u-0" "c1" "gb" 0 2]).filter
          (fun node => normalizeTurnId node.turnId == normalizeTurnId "u-0")).map
          (fun node => node.forkGroupId))
        = pre ++ (resolveForkPlan "c1" "u-0"
            [mkForkNode "u-0" "c1" "ga" 0 1, mkForkNode "u-0" "c1" "gb" 0 2]
            [("ga", [mkForkNode "u-0" "c1" "ga" 0 1]),
             ("gb", [mkForkNode "u-0" "c1" "gb" 5 2, mkForkNode "u-0" "c9" "gb" 3 2])]
            (fun _ => "fresh")).forkGroupId :: post
      ∧ (∀ g ∈ pre, (groupNodesOf
            [("ga", [mkForkNode "u-0" "c1" "ga" 0 1]),
             ("gb", [mkForkNode "u-0" "c1" "gb" 5 2, mkForkNode "u-0" "c9" "gb" 3 2])] g).length
          < (groupNodesOf
            [("ga", [mkForkNode "u-0" "c1" "ga" 0 1]),
             ("gb", [mkForkNode "u-0" "c1" "gb" 5 2, mkForkNode "u-0" "c9" "gb" 3 2])]
            (resolveForkPlan "c1" "u-0"
              [mkForkNode "u-0" "c1" "ga" 0 1, mkForkNode "u-0" "c1" "gb" 0 2]
              [("ga", [mkForkNode "u-0" "c1" "ga" 0 1]),
               ("gb", [mkForkNode "u-0" "c1" "gb" 5 2, mkForkNode "u-0" "c9" "gb" 3 2])]
              (fun _ => "fresh")).forkGroupId).length)
      ∧ (∀ g ∈ post, (groupNodesOf
            [("ga", [mkForkNode "u-0" "c1" "ga" 0 1]),
             ("gb", [mkForkNode "u-0" "c1" "gb" 5 2, mkForkNode "u-0" "c9" "gb" 3 2])] g).length
          ≤ (groupNodesOf
            [("ga", [mkForkNode "u-0" "c1" "ga" 0 1]),
             ("gb", [mkForkNode "u-0" "c1" "gb" 5 2, mkForkNode "u-0" "c9" "gb" 3 2])]
            (resolveForkPlan "c1" "u-0"
              [mkForkNode "u-0" "c1" "ga" 0 1, mkForkNode "u-0" "c1" "gb" 0 2]
              [("ga", [mkForkNode "u-0" "c1" "ga" 0 1]),
               ("gb", [mkForkNode "u-0" "c1" "gb" 5 2, mkForkNode "u-0" "c9" "gb" 3 2])]
              (fun _ => "fresh")).forkGroupId).length) :=
  resolveForkPlan_selects_largest_group "c1" "u-0"
    [mkForkNode "u-0" "c1" "ga" 0 1, mkForkNode "u-0" "c1" "gb" 0 2]
    [("ga", [mkForkNode "u-0" "c1" "ga" 0 1]),
     ("gb", [mkForkNode "u-0" "c1" "gb" 5 2, mkForkNode "u-0" "c9" "gb" 3 2])]
    (fun _ => "fresh") (by decide)

theorem foldMax_ge_init : ∀ (l : List ForkNode) (c : Int),
    c ≤ l.foldl (fun m node => max m node.forkIndex) c := by
  intro l
  induction l with
  | nil => intro c; exact le_refl c
  | cons x rest ih =>
    intro c
    rw [List.foldl_cons]
    exact le_trans (le_max_left c x.forkIndex) (ih (max c x.forkIndex))

theorem foldMax_ge_mem : ∀ (l : List ForkNode) (c : Int) (n : ForkNode), n ∈ l →
    n.forkIndex ≤ l.foldl (fun m node => max m node.forkIndex) c := by
  intro l
  induction l with
  | nil => intro c n hn; simp at hn
  | cons x rest ih =>
    intro c n hn
    rw [List.foldl_cons]
    rcases List.mem_cons.mp hn with h1 | h1
    · rw [h1]
      exact le_trans (le_max_right c x.forkIndex) (foldMax_ge_init rest (max c x.forkIndex))
    · exact ih (max c x.forkIndex) n h1

theorem foldMax_le_of : ∀ (l : List ForkNode) (c m : Int), c ≤ m →
    (∀ n ∈ l, n.forkIndex ≤ m) →
    l.foldl (fun m' node => max m' node.forkIndex) c ≤ m := by
  intro l
  induction l with
  | nil => intro c m hc _; exact hc
  | cons x rest ih =>
    intro c m hc hall
    rw [List.foldl_cons]
    exact ih (max c x.forkIndex) m
      (max_le hc (hall x (List.mem_cons_self _ _)))
      (fun n hn => hall n (List.mem_cons_of_mem _ hn))

theorem foldMax_attained : ∀ (l : List ForkNode) (c : Int),
    l.foldl (fun m node => max m node.forkIndex) c = c
    ∨ ∃ n ∈ l, l.foldl (fun m node => max m node.forkIndex) c = n.forkIndex := by
  intro l
  induction l with
  | nil => intro c; left; rfl
  | cons x rest ih =>
    intro c
    rw [List.foldl_cons]
    rcases ih (max c x.forkIndex) with hz | ⟨n, hn, he⟩
    · rcases max_choice c x.forkIndex with hm | hm
      · left
        rw [hz, hm]
      · right
        exact ⟨x, List.mem_cons_self _ _, by rw [hz, hm]⟩
    · right
      exact ⟨n, List.mem_cons_of_mem _ hn, he⟩

theorem foldMax_next_core (bg1 bg2 : List ForkNode) (hsub : ∀ n ∈ bg1, n ∈ bg2) :
    (∀ n ∈ bg1, n.forkIndex < bg1.foldl (fun m node => max m node.forkIndex) 0 + 1)
    ∧ bg1.foldl (fun m node => max m node.forkIndex) 0 + 1
        ≤ bg2.foldl (fun m node => max m node.forkIndex) 0 + 1
    ∧ (bg1 ≠ [] → (∀ n ∈ bg1, 0 ≤ n.forkIndex) →
        ∃ n0 ∈ bg1, bg1.foldl (fun m node => max m node.forkIndex) 0 + 1 = n0.forkIndex + 1
          ∧ ∀ n ∈ bg1, n.forkIndex ≤ n0.forkIndex) := by
  refine ⟨?_, ?_, ?_⟩
  · intro n hn
    exact Int.lt_add_one_iff.mpr (foldMax_ge_mem bg1 0 n hn)
  · have hle : bg1.foldl (fun m node => max m node.forkIndex) 0
        ≤ bg2.foldl (fun m node => max m node.forkIndex) 0 :=
      foldMax_le_of bg1 0 _ (foldMax_ge_init bg2 0)
        (fun n hn => foldMax_ge_mem bg2 0 n (hsub n hn))
    exact add_le_add_right hle 1
  · intro hne hpos
    rcases foldMax_attained bg1 0 with hz | ⟨n0, hn0, he⟩
    · obtain ⟨x, xs, hx⟩ := List.exists_cons_of_ne_nil hne
      have hxmem : x ∈ bg1 := by
        rw [hx]
        exact List.mem_cons_self _ _
      have hx0 : x.forkIndex = 0 :=
        le_antisymm (hz ▸ foldMax_ge_mem bg1 0 x hxmem) (hpos x hxmem)
      refine ⟨x, hxmem, by rw [hz, hx0], ?_⟩
      intro n hn
      rw [hx0]
      exact hz ▸ foldMax_ge_mem bg1 0 n hn
    · refine ⟨n0, hn0, by rw [he], ?_⟩
      intro n hn
      exact he ▸ foldMax_ge_mem bg1 0 n hn

theorem resolveForkPlan_next_eq (conversationId turnId : String)
    (conversationNodes : List ForkNode) (groups : List (String × List ForkNode))
    (createForkGroupId : Unit → String)
    (hne : conversationNodes.filter
        (fun node => normalizeTurnId node.turnId == normalizeTurnId turnId) ≠ []) :
    (resolveForkPlan conversationId turnId conversationNodes groups
        createForkGroupId).nextForkIndex
      = (groupNodesOf groups (resolveForkPlan conversationId turnId conversationNodes groups
            createForkGroupId).forkGroupId).foldl (fun m node => max m node.forkIndex) 0 + 1 := by
  have hmapne : (conversationNodes.filter
      (fun node => normalizeTurnId node.turnId == normalizeTurnId turnId)).map
      (fun node => node.forkGroupId) ≠ [] := by
    obtain ⟨x, xs, hx⟩ := List.exists_cons_of_ne_nil hne
    rw [hx]
    simp
  obtain ⟨g0, grest, hg⟩ := List.exists_cons_of_ne_nil (dedupFirst_ne_nil _ hmapne)
  rw [resolveForkPlan_eq conversationId turnId conversationNodes groups
    createForkGroupId g0 grest hg]

/-- C5: when at least one node matches the normalized turn id, the
returned `nextForkIndex` is one more than the largest `forkIndex` in the
chosen group's node list (for a non-empty list of nodes with non-negative
indices), is strictly greater than every `forkIndex` already present in
the chosen group, and is monotone: a second call whose chosen group's node
list contains every node of the first call's never returns a smaller
`nextForkIndex`. -/
theorem resolveForkPlan_next_index_monotone
    (cid1 tid1 : String) (nodes1 : List ForkNode) (groups1 : List (String × List ForkNode))
    (mk1 : Unit → String)
    (cid2 tid2 : String) (nodes2 : List ForkNode) (groups2 : List (String × List ForkNode))
    (mk2 : Unit → String)
    (hne1 : nodes1.filter (fun node => normalizeTurnId node.turnId == normalizeTurnId tid1) ≠ [])
    (hne2 : nodes2.filter (fun node => normalizeTurnId node.turnId == normalizeTurnId tid2) ≠ [])
    (hsub : ∀ n ∈ groupNodesOf groups1 (resolveForkPlan cid1 tid1 nodes1 groups1 mk1).forkGroupId,
        n ∈ groupNodesOf groups2 (resolveForkPlan cid2 tid2 nodes2 groups2 mk2).forkGroupId) :
    (∀ n ∈ groupNodesOf groups1 (resolveForkPlan cid1 tid1 nodes1 groups1 mk1).forkGroupId,
        n.forkIndex < (resolveForkPlan cid1 tid1 nodes1 groups1 mk1).nextForkIndex)
    ∧ (resolveForkPlan cid1 tid1 nodes1 groups1 mk1).nextForkIndex
        ≤ (resolveForkPlan cid2 tid2 nodes2 groups2 mk2).nextForkIndex
    ∧ (groupNodesOf groups1 (resolveForkPlan cid1 tid1 nodes1 groups1 mk1).forkGroupId ≠ [] →
        (∀ n ∈ groupNodesOf groups1 (resolveForkPlan cid1 tid1 nodes1 groups1 mk1).forkGroupId,
            0 ≤ n.forkIndex) →
        ∃ n0 ∈ groupNodesOf groups1 (resolveForkPlan cid1 tid1 nodes1 groups1 mk1).forkGroupId,
          (resolveForkPlan cid1 tid1 nodes1 groups1 mk1).nextForkIndex = n0.forkIndex + 1
          ∧ ∀ n ∈ groupNodesOf groups1 (resolveForkPlan cid1 tid1 nodes1 groups1 mk1).forkGroupId,
              n.forkIndex ≤ n0.forkIndex) := by
  rw [resolveForkPlan_next_eq cid1 tid1 nodes1 groups1 mk1 hne1,
    resolveForkPlan_next_eq cid2 tid2 nodes2 groups2 mk2 hne2]
  exact foldMax_next_core
    (groupNodesOf groups1 (resolveForkPlan cid1 tid1 nodes1 groups1 mk1).forkGroupId)
    (groupNodesOf groups2 (resolveForkPlan cid2 tid2 nodes2 groups2 mk2).forkGroupId)
    hsub

/-- C5 witness: the monotonicity theorem on two concrete calls: the first
sees group `gb` with two nodes (indices 5 and 3), the second sees the same
group grown by one more node (index 7). -/
theorem resolveForkPlan_next_index_monotone_instance :
    ((∀ n ∈ groupNodesOf
        [("ga", [mkForkNode "u-0" "c1" "ga" 0 1]),
         ("gb", [mkForkNode "u-0" "c1" "gb" 5 2, mkForkNode "u-0" "c9" "gb" 3 2])]
        (resolveForkPlan "c1" "u-0"
          [mkForkNode "u-0" "c1" "ga" 0 1, mkForkNode "u-0" "c1" "gb" 0 2]
          [("ga", [mkForkNode "u-0" "c1" "ga" 0 1]),
           ("gb", [mkForkNode "u-0" "c1" "gb" 5 2, mkForkNode "u-0" "c9" "gb" 3 2])]
          (fun _ => "fresh")).forkGroupId,
        n.forkIndex < (resolveForkPlan "c1" "u-0"
          [mkForkNode "u-0" "c1" "ga" 0 1, mkForkNode "u-0" "c1" "gb" 0 2]
          [("ga", [mkForkNode "u-0" "c1" "ga" 0 1]),
           ("gb", [mkForkNode "u-0" "c1" "gb" 5 2, mkForkNode "u-0" "c9" "gb" 3 2])]
          (fun _ => "fresh")).nextForkIndex)
      ∧ (resolveForkPlan "c1" "u-0"
          [mkForkNode "u-0" "c1" "ga" 0 1, mkForkNode "u-0" "c1" "gb" 0 2]
          [("ga", [mkForkNode "u-0" "c1" "ga" 0 1]),
           ("gb", [mkForkNode "u-0" "c1" "gb" 5 2, mkForkNode "u-0" "c9" "gb" 3 2])]
          (fun _ => "fresh")).nextForkIndex
        ≤ (resolveForkPlan "c1" "u-0"
          [mkForkNode "u-0" "c1" "ga" 0 1, mkForkNode "u-0" "c1" "gb" 0 2]
          [("ga", [mkForkNode "u-0" "c1" "ga" 0 1]),
           ("gb", [mkForkNode "u-0" "c1" "gb" 5 2, mkForkNode "u-0" "c9" "gb" 3 2,
            mkForkNode "u-0" "c7" "gb" 7 9])]
          (fun _ => "fresh")).nextForkIndex
      ∧ (groupNodesOf
          [("ga", [mkForkNode "u-0" "c1" "ga" 0 1]),
           ("gb", [mkForkNode "u-0" "c1" "gb" 5 2, mkForkNode "u-0" "c9" "gb" 3 2])]
          (resolveForkPlan "c1" "u-0"
            [mkForkNode "u-0" "c1" "ga" 0 1, mkForkNode "u-0" "c1" "gb" 0 2]
            [("ga", [mkForkNode "u-0" "c1" "ga" 0 1]),
             ("gb", [mkForkNode "u-0" "c1" "gb" 5 2, mkForkNode "u-0" "c9" "gb" 3 2])]
            (fun _ => "fresh")).forkGroupId ≠ [] →
          (∀ n ∈ groupNodesOf
              [("ga", [mkForkNode "u-0" "c1" "ga" 0 1]),
               ("gb", [mkForkNode "u-0" "c1" "gb" 5 2, mkForkNode "u-0" "c9" "gb" 3 2])]
              (resolveForkPlan "c1" "u-0"
                [mkForkNode "u-0" "c1" "ga" 0 1, mkForkNode "u-0" "c1" "gb" 0 2]
                [("ga", [mkForkNode "u-0" "c1" "ga" 0 1]),
                 ("gb", [mkForkNode "u-0" "c1" "gb" 5 2, mkForkNode "u-0" "c9" "gb" 3 2])]
                (fun _ => "fresh")).forkGroupId,
              0 ≤ n.forkIndex) →
          ∃ n0 ∈ groupNodesOf
              [("ga", [mkForkNode "u-0" "c1" "ga" 0 1]),
               ("gb", [mkForkNode "u-0" "c1" "gb" 5 2, mkForkNode "u-0" "c9" "gb" 3 2])]
              (resolveForkPlan "c1" "u-0"
                [mkForkNode "u-0" "c1" "ga" 0 1, mkForkNode "u-0" "c1" "gb" 0 2]
                [("ga", [mkForkNode "u-0" "c1" "ga" 0 1]),
                 ("gb", [mkForkNode "u-0" "c1" "gb" 5 2, mkForkNode "u-0" "c9" "gb" 3 2])]
                (fun _ => "fresh")).forkGroupId,
            (resolveForkPlan "c1" "u-0"
              [mkForkNode "u-0" "c1" "ga" 0 1, mkForkNode "u-0" "c1" "gb" 0 2]
              [("ga", [mkForkNode "u-0" "c1" "ga" 0 1]),
               ("gb", [mkForkNode "u-0" "c1" "gb" 5 2, mkForkNode "u-0" "c9" "gb" 3 2])]
              (fun _ => "fresh")).nextForkIndex = n0.forkIndex + 1
            ∧ ∀ n ∈ groupNodesOf
                [("ga", [mkForkNode "u-0" "c1" "ga" 0 1]),
                 ("gb", [mkForkNode "u-0" "c1" "gb" 5 2, mkForkNode "u-0" "c9" "gb" 3 2])]
                (resolveForkPlan "c1" "u-0"
                  [mkForkNode "u-0" "c1" "ga" 0 1, mkForkNode "u-0" "c1" "gb" 0 2]
                  [("ga", [mkForkNode "u-0" "c1" "ga" 0 1]),
                   ("gb", [mkForkNode "u-0" "c1" "gb" 5 2, mkForkNode "u-0" "c9" "gb" 3 2])]
                  (fun _ => "fresh")).forkGroupId,
                n.forkIndex ≤ n0.forkIndex)) :=
  resolveForkPlan_next_index_monotone "c1" "u-0"
    [mkForkNode "u-0" "c1" "ga" 0 1, mkForkNode "u-0" "c1" "gb" 0 2]
    [("ga", [mkForkNode "u-0" "c1" "ga" 0 1]),
     ("gb", [mkForkNode "u-0" "c1" "gb" 5 2, mkForkNode "u-0" "c9" "gb" 3 2])]
    (fun _ => "fresh")
    "c1" "u-0"
    [mkForkNode "u-0" "c1" "ga" 0 1, mkForkNode "u-0" "c1" "gb" 0 2]
    [("ga", [mkForkNode "u-0" "c1" "ga" 0 1]),
     ("gb", [mkForkNode "u-0" "c1" "gb" 5 2, mkForkNode "u-0" "c9" "gb" 3 2,
      mkForkNode "u-0" "c7" "gb" 7 9])]
    (fun _ => "fresh")
    (by decide) (by decide) (by decide)

-- ==========================================================================
-- C6: buildBranchDisplayNodes
-- ==========================================================================

theorem lexLe_refl (a : ForkNode) : lexLe a a :=
  Or.inr ⟨rfl, le_refl _⟩

theorem lexLe_trans {a b c : ForkNode} (h1 : lexLe a b) (h2 : lexLe b c) : lexLe a c := by
  rcases h1 with h1 | ⟨h1f, h1c⟩
  · rcases h2 with h2 | ⟨h2f, h2c⟩
    · exact Or.inl (lt_trans h1 h2)
    · exact Or.inl (h2f ▸ h1)
  · rcases h2 with h2 | ⟨h2f, h2c⟩
    · exact Or.inl (h1f ▸ h2)
    · exact Or.inr ⟨h1f.trans h2f, le_trans h1c h2c⟩

theorem lexLeB_iff (a b : ForkNode) : lexLeB a b = true ↔ lexLe a b := by
  simp [lexLeB, lexLe]

theorem lexLeB_total (a b : ForkNode) : (lexLeB a b || lexLeB b a) = true := by
  rw [Bool.or_eq_true, lexLeB_iff, lexLeB_iff]
  rcases lt_trichotomy a.forkIndex b.forkIndex with h | h | h
  · exact Or.inl (Or.inl h)
  · rcases le_total a.createdAt b.createdAt with hc | hc
    · exact Or.inl (Or.inr ⟨h, hc⟩)
    · exact Or.inr (Or.inr ⟨h.symm, hc⟩)
  · exact Or.inr (Or.inl h)

theorem assoc_nodup_unique {α : Type} (m : List (String × α)) (hnd : (keysA m).Nodup)
    (k : String) (v1 v2 : α) (hv1 : (k, v1) ∈ m) (hv2 : (k, v2) ∈ m) : v1 = v2 := by
  induction m with
  | nil => simp at hv1
  | cons q rest ih =>
    have hnd2 : (q.1 :: keysA rest).Nodup := hnd
    have hq : q.1 ∉ keysA rest := (List.nodup_cons.mp hnd2).1
    have hnd' : (keysA rest).Nodup := (List.nodup_cons.mp hnd2).2
    rcases List.mem_cons.mp hv1 with h1 | h1
    · rcases List.mem_cons.mp hv2 with h2 | h2
      · exact congrArg Prod.snd (h1.trans h2.symm)
      · exfalso
        apply hq
        have hk : q.1 = k := (congrArg Prod.fst h1).symm
        rw [hk]
        exact List.mem_map.mpr ⟨(k, v2), h2, rfl⟩
    · rcases List.mem_cons.mp hv2 with h2 | h2
      · exfalso
        apply hq
        have hk : q.1 = k := (congrArg Prod.fst h2).symm
        rw [hk]
        exact List.mem_map.mpr ⟨(k, v1), h1, rfl⟩
      · exact ih hnd' h1 h2

theorem dedupStep_inv (m : List (String × ForkNode)) (seen : List ForkNode) (x : ForkNode)
    (h1 : (keysA m).Nodup) (h2 : ∀ p ∈ m, p.2.conversationId = p.1)
    (h3 : ∀ p ∈ m, p.2 ∈ seen)
    (h4 : ∀ p ∈ m, ∀ n' ∈ seen, n'.conversationId = p.1 → lexLe p.2 n')
    (h5 : ∀ n' ∈ seen, ∃ p ∈ m, p.1 = n'.conversationId) :
    (keysA (dedupStep m x)).Nodup
    ∧ (∀ p ∈ dedupStep m x, p.2.conversationId = p.1)
    ∧ (∀ p ∈ dedupStep m x, p.2 ∈ seen ++ [x])
    ∧ (∀ p ∈ dedupStep m x, ∀ n' ∈ seen ++ [x], n'.conversationId = p.1 → lexLe p.2 n')
    ∧ (∀ n' ∈ seen ++ [x], ∃ p ∈ dedupStep m x, p.1 = n'.conversationId) := by
  match hlk : lookupA m x.conversationId with
  | none =>
    have heq : dedupStep m x = m ++ [(x.conversationId, x)] := by
      unfold dedupStep
      rw [hlk]
    have hnk : ∀ p ∈ m, p.1 ≠ x.conversationId := (lookupA_eq_none_iff m _).mp hlk
    have hkey : x.conversationId ∉ keysA m := by
      intro hc
      obtain ⟨p, hp, hpe⟩ := List.mem_map.mp hc
      exact hnk p hp hpe
    rw [heq]
    refine ⟨?_, ?_, ?_, ?_, ?_⟩
    · have hka : keysA (m ++ [(x.conversationId, x)]) = keysA m ++ [x.conversationId] := by
        simp [keysA]
      rw [hka]
      refine List.nodup_append.mpr ⟨h1, List.nodup_singleton _, ?_⟩
      intro a ha hb
      simp at hb
      rw [hb] at ha
      exact hkey ha
    · intro p hp
      rcases List.mem_append.mp hp with hp1 | hp1
      · exact h2 p hp1
      · simp at hp1
        rw [hp1]
    · intro p hp
      rcases List.mem_append.mp hp with hp1 | hp1
      · exact List.mem_append_left _ (h3 p hp1)
      · simp at hp1
        rw [hp1]
        simp
    · intro p hp n' hn' hcid
      rcases List.mem_append.mp hp with hp1 | hp1
      · rcases List.mem_append.mp hn' with hn1 | hn1
        · exact h4 p hp1 n' hn1 hcid
        · simp at hn1
          exfalso
          apply hnk p hp1
          rw [← hcid, hn1]
      · simp at hp1
        rcases List.mem_append.mp hn' with hn1 | hn1
        · exfalso
          obtain ⟨q, hq, hqe⟩ := h5 n' hn1
          apply hnk q hq
          rw [hqe, hcid, hp1]
        · simp at hn1
          rw [hp1, hn1]
          exact lexLe_refl x
    · intro n' hn'
      rcases List.mem_append.mp hn' with hn1 | hn1
      · obtain ⟨q, hq, hqe⟩ := h5 n' hn1
        exact ⟨q, List.mem_append_left _ hq, hqe⟩
      · simp at hn1
        refine ⟨(x.conversationId, x), by simp, ?_⟩
        rw [hn1]
  | some existing =>
    have hex : (x.conversationId, existing) ∈ m := lookupA_mem m _ _ hlk
    have hxk : x.conversationId ∈ keysA m := lookupA_key_mem m _ _ hlk
    have heq0 : dedupStep m x
        = if x.forkIndex < existing.forkIndex then setA m x.conversationId x
          else if x.forkIndex = existing.forkIndex ∧ x.createdAt < existing.createdAt then
            setA m x.conversationId x
          else m := by
      unfold dedupStep
      rw [hlk]
    by_cases hrep : x.forkIndex < existing.forkIndex
      ∨ (x.forkIndex = existing.forkIndex ∧ x.createdAt < existing.createdAt)
    · -- the incoming node replaces the existing entry
      have heq : dedupStep m x = setA m x.conversationId x := by
        rw [heq0]
        by_cases hc1 : x.forkIndex < existing.forkIndex
        · rw [if_pos hc1]
        · rw [if_neg hc1]
          rcases hrep with hr | hr
          · exact absurd hr hc1
          · rw [if_pos hr]
      have hxe : lexLe x existing := by
        rcases hrep with hr | ⟨hf, hc⟩
        · exact Or.inl hr
        · exact Or.inr ⟨hf, le_of_lt hc⟩
      have hkeys : keysA (setA m x.conversationId x) = keysA m := by
        rw [keysA_setA, if_pos hxk]
      rw [heq]
      refine ⟨?_, ?_, ?_, ?_, ?_⟩
      · rw [hkeys]
        exact h1
      · intro p hp
        rcases mem_setA_elim m _ _ h1 p hp with hp1 | ⟨hp1, _⟩
        · rw [hp1]
        · exact h2 p hp1
      · intro p hp
        rcases mem_setA_elim m _ _ h1 p hp with hp1 | ⟨hp1, _⟩
        · rw [hp1]
          simp
        · exact List.mem_append_left _ (h3 p hp1)
      · intro p hp n' hn' hcid
        rcases mem_setA_elim m _ _ h1 p hp with hp1 | ⟨hp1, hpne⟩
        · rw [hp1]
          rw [hp1] at hcid
          rcases List.mem_append.mp hn' with hn1 | hn1
          · exact lexLe_trans hxe (h4 (x.conversationId, existing) hex n' hn1 hcid)
          · simp at hn1
            rw [hn1]
            exact lexLe_refl x
        · rcases List.mem_append.mp hn' with hn1 | hn1
          · exact h4 p hp1 n' hn1 hcid
          · simp at hn1
            exfalso
            apply hpne
            rw [← hcid, hn1]
      · intro n' hn'
        rcases List.mem_append.mp hn' with hn1 | hn1
        · obtain ⟨q, hq, hqe⟩ := h5 n' hn1
          by_cases hqx : q.1 = x.conversationId
          · refine ⟨(x.conversationId, x), self_mem_setA m _ _, ?_⟩
            rw [← hqx, hqe]
          · exact ⟨q, mem_setA_of_ne m _ _ q hq hqx, hqe⟩
        · simp at hn1
          refine ⟨(x.conversationId, x), self_mem_setA m _ _, ?_⟩
          rw [hn1]
    · -- the existing entry is kept
      have heq : dedupStep m x = m := by
        rw [heq0, if_neg (fun hc => hrep (Or.inl hc)), if_neg (fun hc => hrep (Or.inr hc))]
      have hex2 : lexLe existing x := by
        push_neg at hrep
        obtain ⟨hr1, hr2⟩ := hrep
        rcases lt_or_eq_of_le hr1 with hf | hf
        · exact Or.inl hf
        · exact Or.inr ⟨hf, hr2 hf.symm⟩
      rw [heq]
      refine ⟨h1, h2, ?_, ?_, ?_⟩
      · intro p hp
        exact List.mem_append_left _ (h3 p hp)
      · intro p hp n' hn' hcid
        rcases List.mem_append.mp hn' with hn1 | hn1
        · exact h4 p hp n' hn1 hcid
        · simp at hn1
          have hpx : p.1 = x.conversationId := by
            rw [← hcid, hn1]
          have hpe : p.2 = existing := by
            have hp2 : (x.conversationId, p.2) = p := by
              rw [← hpx]
            have hp' : (x.conversationId, p.2) ∈ m := by
              rw [hp2]
              exact hp
            exact assoc_nodup_unique m h1 x.conversationId p.2 existing hp' hex
          rw [hn1, hpe]
          exact hex2
      · intro n' hn'
        rcases List.mem_append.mp hn' with hn1 | hn1
        · exact h5 n' hn1
        · simp at hn1
          refine ⟨(x.conversationId, existing), hex, ?_⟩
          rw [hn1]

theorem dedup_foldl_inv (xs : List ForkNode) :
    ∀ (m : List (String × ForkNode)) (seen : List ForkNode),
      (keysA m).Nodup →
      (∀ p ∈ m, p.2.conversationId = p.1) →
      (∀ p ∈ m, p.2 ∈ seen) →
      (∀ p ∈ m, ∀ n' ∈ seen, n'.conversationId = p.1 → lexLe p.2 n') →
      (∀ n' ∈ seen, ∃ p ∈ m, p.1 = n'.conversationId) →
      ((keysA (xs.foldl dedupStep m)).Nodup
        ∧ (∀ p ∈ xs.foldl dedupStep m, p.2.conversationId = p.1)
        ∧ (∀ p ∈ xs.foldl dedupStep m, p.2 ∈ seen ++ xs)
        ∧ (∀ p ∈ xs.foldl dedupStep m, ∀ n' ∈ seen ++ xs,
            n'.conversationId = p.1 → lexLe p.2 n')
        ∧ (∀ n' ∈ seen ++ xs, ∃ p ∈ xs.foldl dedupStep m, p.1 = n'.conversationId)) := by
  induction xs with
  | nil =>
    intro m seen h1 h2 h3 h4 h5
    rw [List.foldl_nil, List.append_nil]
    exact ⟨h1, h2, h3, h4, h5⟩
  | cons x rest ih =>
    intro m seen h1 h2 h3 h4 h5
    obtain ⟨g1, g2, g3, g4, g5⟩ := dedupStep_inv m seen x h1 h2 h3 h4 h5
    have hres := ih (dedupStep m x) (seen ++ [x]) g1 g2 g3 g4 g5
    simpa [List.append_assoc] using hres

/-- C6: `buildBranchDisplayNodes` returns at most one node per distinct
conversation id; every returned node comes from the input and is
`(forkIndex, createdAt)`-minimal among the input candidates of its
conversation; every input conversation id is represented; and the output
is sorted ascending by `forkIndex` with `createdAt` breaking ties. -/
theorem buildBranchDisplayNodes_dedup_sorted (groupNodesList : List (List ForkNode)) :
    ((buildBranchDisplayNodes groupNodesList).map (fun n => n.conversationId)).Nodup
    ∧ (∀ n ∈ buildBranchDisplayNodes groupNodesList,
        n ∈ groupNodesList.flatten
        ∧ ∀ n' ∈ groupNodesList.flatten, n'.conversationId = n.conversationId → lexLe n n')
    ∧ (∀ n' ∈ groupNodesList.flatten, ∃ n ∈ buildBranchDisplayNodes groupNodesList,
        n.conversationId = n'.conversationId)
    ∧ List.Pairwise lexLe (buildBranchDisplayNodes groupNodesList) := by
  obtain ⟨hnd, hcid, hmem, hmin, hcomp⟩ :=
    dedup_foldl_inv (groupNodesList.flatten) [] []
      (by simp [keysA]) (by simp) (by simp) (by simp) (by simp)
  have hperm : List.Perm (buildBranchDisplayNodes groupNodesList)
      ((groupNodesList.flatten.foldl dedupStep []).map Prod.snd) :=
    List.mergeSort_perm _ _
  have hmapcid : ((groupNodesList.flatten.foldl dedupStep []).map Prod.snd).map
      (fun n => n.conversationId) = keysA (groupNodesList.flatten.foldl dedupStep []) := by
    rw [List.map_map]
    exact List.map_congr_left (fun p hp => hcid p hp)
  refine ⟨?_, ?_, ?_, ?_⟩
  · have hnodup : (((groupNodesList.flatten.foldl dedupStep []).map Prod.snd).map
        (fun n => n.conversationId)).Nodup := by
      rw [hmapcid]
      exact hnd
    exact ((hperm.map (fun n => n.conversationId)).symm).nodup hnodup
  · intro n hn
    have hn' : n ∈ (groupNodesList.flatten.foldl dedupStep []).map Prod.snd :=
      hperm.mem_iff.mp hn
    obtain ⟨p, hp, hpe⟩ := List.mem_map.mp hn'
    constructor
    · rw [← hpe]
      exact hmem p hp
    · intro n' hn'f hcidn
      rw [← hpe]
      apply hmin p hp n' hn'f
      rw [hcidn, ← hpe]
      exact hcid p hp
  · intro n' hn'
    obtain ⟨p, hp, hpe⟩ := hcomp n' hn'
    refine ⟨p.2, ?_, ?_⟩
    · exact hperm.mem_iff.mpr (List.mem_map.mpr ⟨p, hp, rfl⟩)
    · rw [hcid p hp, hpe]
  · have hsorted := @List.sorted_mergeSort ForkNode lexLeB
      (fun a b c hab hbc =>
        (lexLeB_iff a c).mpr (lexLe_trans ((lexLeB_iff a b).mp hab) ((lexLeB_iff b c).mp hbc)))
      lexLeB_total
      ((groupNodesList.flatten.foldl dedupStep []).map Prod.snd)
    exact hsorted.imp (fun hab => (lexLeB_iff _ _).mp hab)

-- ==========================================================================
-- C1: merge keeps exactly the last-writer-wins entry per shared identity
-- ==========================================================================

theorem identFilter_cons (b : ForkNode) (l : List ForkNode) (j : String × String × String) :
    identFilter (b :: l) j = if identOf b = j then b :: identFilter l j else identFilter l j := by
  unfold identFilter
  rw [List.filter_cons]
  by_cases hb : identOf b = j
  · rw [if_pos (by simp [hb]), if_pos hb]
  · rw [if_neg (by simp [hb]), if_neg hb]

theorem identFilter_append (l1 l2 : List ForkNode) (j : String × String × String) :
    identFilter (l1 ++ l2) j = identFilter l1 j ++ identFilter l2 j :=
  List.filter_append l1 l2

theorem identOf_resolveNode (m n : ForkNode) (h : identOf m = identOf n) :
    identOf (resolveNode m n) = identOf n := by
  unfold resolveNode
  split
  · rfl
  · exact h

theorem short_list_eq (l : List ForkNode) (h : l.length ≤ 1) : l = optList l.head? := by
  match l with
  | [] => rfl
  | [a] => rfl
  | a :: b :: rest => simp at h

theorem identFilter_short (l : List ForkNode) (j : String × String × String)
    (h : (identFilter l j).length ≤ 1) :
    identFilter l j = [] ∨ ∃ m, identFilter l j = [m] := by
  rcases hs : identFilter l j with _ | ⟨m, rest⟩
  · exact Or.inl rfl
  · rw [hs] at h
    simp at h
    rw [h]
    exact Or.inr ⟨m, rfl⟩

theorem identFilter_insertMergedNode (x : ForkNode) (i : String × String × String) :
    ∀ acc : List ForkNode, (∀ j, (identFilter acc j).length ≤ 1) →
      identFilter (insertMergedNode acc x) i
        = if identOf x = i then
            (match identFilter acc i with
             | [] => [x]
             | m :: _ => [resolveNode m x])
          else identFilter acc i := by
  intro acc
  induction acc with
  | nil =>
    intro _
    by_cases hxi : identOf x = i
    · simp [insertMergedNode, identFilter, hxi]
    · simp [insertMergedNode, identFilter, hxi]
  | cons a as ih =>
    intro hu
    have hu' : ∀ j, (identFilter as j).length ≤ 1 := by
      intro j
      refine le_trans ?_ (hu j)
      rw [identFilter_cons]
      split
      · exact Nat.le_succ _
      · exact le_refl _
    by_cases hax : identOf a = identOf x
    · have hins : insertMergedNode (a :: as) x = resolveNode a x :: as := by
        unfold insertMergedNode
        rw [if_pos hax]
      have hres : identOf (resolveNode a x) = identOf x := identOf_resolveNode a x hax
      by_cases hxi : identOf x = i
      · have hai : identOf a = i := hax.trans hxi
        have hfa : identFilter (a :: as) i = a :: identFilter as i := by
          rw [identFilter_cons, if_pos hai]
        have hzero : identFilter as i = [] := by
          have hlen := hu i
          rw [hfa] at hlen
          simp at hlen
          exact hlen
        rw [hins, identFilter_cons, if_pos (hres.trans hxi), hzero, if_pos hxi, hfa, hzero]
      · have hai : identOf a ≠ i := fun hc => hxi (hax.symm.trans hc)
        have hfa : identFilter (a :: as) i = identFilter as i := by
          rw [identFilter_cons, if_neg hai]
        rw [hins, identFilter_cons, if_neg (fun hc => hxi (hres.symm.trans hc)),
          if_neg hxi, hfa]
    · have hins : insertMergedNode (a :: as) x = a :: insertMergedNode as x := by
        simp [insertMergedNode, hax]
      by_cases hxi : identOf x = i
      · have hai : identOf a ≠ i := fun hc => hax (hc.trans hxi.symm)
        rw [hins, identFilter_cons, if_neg hai, ih hu', if_pos hxi, if_pos hxi,
          identFilter_cons, if_neg hai]
      · by_cases hai : identOf a = i
        · rw [hins, identFilter_cons, if_pos hai, ih hu', if_neg hxi, if_neg hxi,
            identFilter_cons, if_pos hai]
        · rw [hins, identFilter_cons, if_neg hai, ih hu', if_neg hxi, if_neg hxi,
            identFilter_cons, if_neg hai]

theorem identFilter_insert_short (x : ForkNode) (acc : List ForkNode)
    (hu : ∀ j, (identFilter acc j).length ≤ 1) (j : String × String × String) :
    (identFilter (insertMergedNode acc x) j).length ≤ 1 := by
  rw [identFilter_insertMergedNode x j acc hu]
  by_cases hxj : identOf x = j
  · rw [if_pos hxj]
    rcases hs : identFilter acc j with _ | ⟨m, rest⟩
    · simp
    · simp
  · rw [if_neg hxj]
    exact hu j

theorem identFilter_foldl_insert (i : String × String × String) :
    ∀ (xs acc : List ForkNode), (∀ j, (identFilter acc j).length ≤ 1) →
      identFilter (xs.foldl insertMergedNode acc) i
        = optList (mergeRun (identFilter acc i).head? (identFilter xs i)) := by
  intro xs
  induction xs with
  | nil =>
    intro acc hu
    rw [List.foldl_nil]
    show identFilter acc i = optList (mergeRun (identFilter acc i).head? [])
    rw [show mergeRun (identFilter acc i).head? [] = (identFilter acc i).head? from by
      cases (identFilter acc i).head? <;> rfl]
    exact short_list_eq _ (hu i)
  | cons x rest ih =>
    intro acc hu
    rw [List.foldl_cons]
    rw [ih (insertMergedNode acc x) (identFilter_insert_short x acc hu)]
    rw [identFilter_insertMergedNode x i acc hu]
    by_cases hxi : identOf x = i
    · rw [if_pos hxi]
      have hxs : identFilter (x :: rest) i = x :: identFilter rest i := by
        rw [identFilter_cons, if_pos hxi]
      rw [hxs]
      rcases identFilter_short acc i (hu i) with hz | ⟨m, hm⟩
      · rw [hz]
        rfl
      · rw [hm]
        rfl
    · rw [if_neg hxi]
      have hxs : identFilter (x :: rest) i = identFilter rest i := by
        rw [identFilter_cons, if_neg hxi]
      rw [hxs]

theorem identFilter_mergeNodeLists (lB cB : List ForkNode) (i : String × String × String)
    (nL nC : ForkNode) (hL : identFilter lB i = [nL]) (hC : identFilter cB i = [nC]) :
    identFilter (mergeNodeLists lB cB) i = [if nC.createdAt > nL.createdAt then nC else nL] := by
  unfold mergeNodeLists
  rw [identFilter_foldl_insert i (lB ++ cB) [] (by intro j; simp [identFilter])]
  rw [identFilter_append, hL, hC]
  rfl

theorem mem_insertMergedNode (x y : ForkNode) :
    ∀ acc : List ForkNode, y ∈ insertMergedNode acc x → y ∈ acc ∨ y = x := by
  intro acc
  induction acc with
  | nil =>
    intro h
    simp [insertMergedNode] at h
    exact Or.inr h
  | cons a as ih =>
    intro h
    by_cases hax : identOf a = identOf x
    · rw [show insertMergedNode (a :: as) x = resolveNode a x :: as from by
        unfold insertMergedNode; rw [if_pos hax]] at h
      rcases List.mem_cons.mp h with h1 | h1
      · unfold resolveNode at h1
        split at h1
        · exact Or.inr h1
        · exact Or.inl (h1 ▸ List.mem_cons_self _ _)
      · exact Or.inl (List.mem_cons_of_mem _ h1)
    · rw [show insertMergedNode (a :: as) x = a :: insertMergedNode as x from by
        simp [insertMergedNode, hax]] at h
      rcases List.mem_cons.mp h with h1 | h1
      · exact Or.inl (h1 ▸ List.mem_cons_self _ _)
      · rcases ih h1 with h2 | h2
        · exact Or.inl (List.mem_cons_of_mem _ h2)
        · exact Or.inr h2

theorem mem_foldl_insertMergedNode (y : ForkNode) :
    ∀ (xs acc : List ForkNode), y ∈ xs.foldl insertMergedNode acc → y ∈ acc ∨ y ∈ xs := by
  intro xs
  induction xs with
  | nil =>
    intro acc h
    exact Or.inl h
  | cons x rest ih =>
    intro acc h
    rw [List.foldl_cons] at h
    rcases ih (insertMergedNode acc x) h with h1 | h1
    · rcases mem_insertMergedNode x y acc h1 with h2 | h2
      · exact Or.inl h2
      · exact Or.inr (h2 ▸ List.mem_cons_self _ _)
    · exact Or.inr (List.mem_cons_of_mem _ h1)

theorem identFilter_eq_nil (l : List ForkNode) (i : String × String × String)
    (h : ∀ y ∈ l, identOf y ≠ i) : identFilter l i = [] := by
  induction l with
  | nil => rfl
  | cons a as ih =>
    rw [identFilter_cons, if_neg (h a (List.mem_cons_self _ _))]
    exact ih (fun y hy => h y (List.mem_cons_of_mem _ hy))

theorem flatten_identFilter_none (i : String × String × String) (f : String → List ForkNode) :
    ∀ ks : List String, (∀ k ∈ ks, identFilter (f k) i = []) →
      identFilter ((ks.map f).flatten) i = [] := by
  intro ks
  induction ks with
  | nil => intro _; rfl
  | cons k ks' ih =>
    intro h
    rw [List.map_cons, List.flatten_cons, identFilter_append,
      h k (List.mem_cons_self _ _), ih (fun k' hk' => h k' (List.mem_cons_of_mem _ hk'))]
    rfl

theorem flatten_identFilter_single (i : String × String × String) (c : String) (w : ForkNode)
    (f : String → List ForkNode) :
    ∀ ks : List String, ks.Nodup → c ∈ ks →
      (∀ k ∈ ks, k ≠ c → identFilter (f k) i = []) → identFilter (f c) i = [w] →
      identFilter ((ks.map f).flatten) i = [w] := by
  intro ks
  induction ks with
  | nil =>
    intro _ hc
    simp at hc
  | cons k ks' ih =>
    intro hnd hc hothers hcw
    rw [List.map_cons, List.flatten_cons, identFilter_append]
    rcases List.mem_cons.mp hc with h1 | h1
    · have hrest : identFilter ((ks'.map f).flatten) i = [] := by
        apply flatten_identFilter_none
        intro k' hk'
        apply hothers k' (List.mem_cons_of_mem _ hk')
        intro hcon
        rw [← h1] at hnd
        exact (List.nodup_cons.mp hnd).1 (hcon ▸ hk')
      rw [← h1, hcw, hrest]
      rfl
    · have hkc : k ≠ c := by
        intro hcon
        exact (List.nodup_cons.mp hnd).1 (hcon ▸ h1)
      rw [hothers k (List.mem_cons_self _ _) hkc,
        ih (List.nodup_cons.mp hnd).2 h1
          (fun k' hk' => hothers k' (List.mem_cons_of_mem _ hk')) hcw]
      rfl

/-- C1: for an identity `(c, t, g)` present exactly once in each replica's
bucket for conversation `c`, the merged output of (the spec-modelled)
`mergeForkNodes` keeps exactly one entry for that identity across all
buckets: the whole entry with the strictly greater `createdAt`, the local
replica's entry on an exact tie. -/
theorem mergeForkNodes_identity_winner (localData cloudData : ForkNodesData)
    (nL nC : ForkNode) (c t g : String)
    (hWl : WellFormedNodes localData) (hWc : WellFormedNodes cloudData)
    (hL : identFilter ((lookupA localData.nodes c).getD []) (c, t, g) = [nL])
    (hC : identFilter ((lookupA cloudData.nodes c).getD []) (c, t, g) = [nC]) :
    identFilter
        (flattenNodes (mergeForkNodes (.wellFormed localData) (.wellFormed cloudData)))
        (c, t, g)
      = [if nC.createdAt > nL.createdAt then nC else nL] := by
  have hflat : flattenNodes (mergeForkNodes (.wellFormed localData) (.wellFormed cloudData))
      = (((dedupFirst (keysA localData.nodes ++ keysA cloudData.nodes)).map
          (fun k => mergeNodeLists ((lookupA localData.nodes k).getD [])
            ((lookupA cloudData.nodes k).getD []))).flatten) := by
    show (((dedupFirst (keysA localData.nodes ++ keysA cloudData.nodes)).map
        (fun k => (k, mergeNodeLists ((lookupA localData.nodes k).getD [])
          ((lookupA cloudData.nodes k).getD [])))).map Prod.snd).flatten = _
    rw [List.map_map]
    rfl
  rw [hflat]
  have hbucket : ∀ (d : ForkNodesData), WellFormedNodes d → ∀ (k : String),
      ∀ y ∈ (lookupA d.nodes k).getD [], y.conversationId = k := by
    intro d hW k y hy
    match hlk : lookupA d.nodes k with
    | none =>
      rw [hlk] at hy
      simp at hy
    | some bucket =>
      rw [hlk] at hy
      exact hW.2 (k, bucket) (lookupA_mem d.nodes k bucket hlk) y hy
  have hcmem : c ∈ dedupFirst (keysA localData.nodes ++ keysA cloudData.nodes) := by
    rw [mem_dedupFirst]
    apply List.mem_append_left
    match hlk : lookupA localData.nodes c with
    | none =>
      rw [hlk] at hL
      simp [identFilter] at hL
    | some bucket =>
      exact lookupA_key_mem localData.nodes c bucket hlk
  apply flatten_identFilter_single (c, t, g) c _ _ _
    (dedupFirst_nodup _) hcmem
  · intro k _ hkc
    apply identFilter_eq_nil
    intro y hy hident
    have hyc : y.conversationId = c := congrArg (fun p => p.1) hident
    rcases mem_foldl_insertMergedNode y _ [] hy with h1 | h1
    · simp at h1
    · rcases List.mem_append.mp h1 with h2 | h2
      · exact hkc ((hbucket localData hWl k y h2) ▸ hyc ▸ rfl)
      · exact hkc ((hbucket cloudData hWc k y h2) ▸ hyc ▸ rfl)
  · exact identFilter_mergeNodeLists _ _ _ nL nC hL hC

/-- C1 witness: the winner theorem on one-node replicas sharing the
identity `(conv1, u-0, fork-1)` with cloud `createdAt` strictly newer. -/
theorem mergeForkNodes_identity_winner_instance :
    identFilter
        (flattenNodes (mergeForkNodes
          (.wellFormed ⟨[("conv1", [mkForkNode "u-0" "conv1" "fork-1" 0 1000])], []⟩)
          (.wellFormed ⟨[("conv1", [mkForkNode "u-0" "conv1" "fork-1" 1 2000])], []⟩)))
        ("conv1", "u-0", "fork-1")
      = [if (mkForkNode "u-0" "conv1" "fork-1" 1 2000).createdAt
            > (mkForkNode "u-0" "conv1" "fork-1" 0 1000).createdAt
         then mkForkNode "u-0" "conv1" "fork-1" 1 2000
         else mkForkNode "u-0" "conv1" "fork-1" 0 1000] :=
  mergeForkNodes_identity_winner
    ⟨[("conv1", [mkForkNode "u-0" "conv1" "fork-1" 0 1000])], []⟩
    ⟨[("conv1", [mkForkNode "u-0" "conv1" "fork-1" 1 2000])], []⟩
    (mkForkNode "u-0" "conv1" "fork-1" 0 1000)
    (mkForkNode "u-0" "conv1" "fork-1" 1 2000)
    "conv1" "u-0" "fork-1"
    (by decide) (by decide) (by decide) (by decide)

-- ==========================================================================
-- C2: the groups index is exactly the projection of the merged nodes
-- ==========================================================================

theorem insertGroupKey_inv (gs : List (String × List String)) (seen : List ForkNode)
    (n : ForkNode)
    (h1 : ∀ g, ((lookupA gs g).getD []).Nodup)
    (h2 : ∀ g k, k ∈ (lookupA gs g).getD []
      ↔ ∃ y ∈ seen, y.forkGroupId = g ∧ nodeKey y = k) :
    (∀ g, ((lookupA (insertGroupKey gs n) g).getD []).Nodup)
    ∧ (∀ g k, k ∈ (lookupA (insertGroupKey gs n) g).getD []
        ↔ ∃ y ∈ seen ++ [n], y.forkGroupId = g ∧ nodeKey y = k) := by
  have hdef : insertGroupKey gs n
      = if nodeKey n ∈ (lookupA gs n.forkGroupId).getD [] then gs
        else setA gs n.forkGroupId (((lookupA gs n.forkGroupId).getD []) ++ [nodeKey n]) := rfl
  by_cases hmem : nodeKey n ∈ (lookupA gs n.forkGroupId).getD []
  · rw [hdef, if_pos hmem]
    refine ⟨h1, ?_⟩
    intro g k
    rw [h2 g k]
    constructor
    · rintro ⟨y, hy, hyg, hyk⟩
      exact ⟨y, List.mem_append_left _ hy, hyg, hyk⟩
    · rintro ⟨y, hy, hyg, hyk⟩
      rcases List.mem_append.mp hy with hy1 | hy1
      · exact ⟨y, hy1, hyg, hyk⟩
      · simp at hy1
        obtain ⟨y', hy', hyg', hyk'⟩ := (h2 n.forkGroupId (nodeKey n)).mp hmem
        subst hy1
        exact ⟨y', hy', hyg ▸ hyg', hyk ▸ hyk'⟩
  · rw [hdef, if_neg hmem]
    have hset : ∀ g,
        (lookupA (setA gs n.forkGroupId (((lookupA gs n.forkGroupId).getD [])
          ++ [nodeKey n])) g).getD []
        = if g = n.forkGroupId then ((lookupA gs n.forkGroupId).getD []) ++ [nodeKey n]
          else (lookupA gs g).getD [] := by
      intro g
      rw [lookupA_setA]
      by_cases hg : g = n.forkGroupId
      · rw [if_pos hg, if_pos hg]
        rfl
      · rw [if_neg hg, if_neg hg]
    refine ⟨?_, ?_⟩
    · intro g
      rw [hset g]
      by_cases hg : g = n.forkGroupId
      · rw [if_pos hg]
        refine List.nodup_append.mpr ⟨h1 _, List.nodup_singleton _, ?_⟩
        intro a ha hb
        simp at hb
        rw [hb] at ha
        exact hmem ha
      · rw [if_neg hg]
        exact h1 g
    · intro g k
      rw [hset g]
      by_cases hg : g = n.forkGroupId
      · rw [if_pos hg]
        constructor
        · intro hk
          rcases List.mem_append.mp hk with hk1 | hk1
          · obtain ⟨y, hy, hyg, hyk⟩ := (h2 n.forkGroupId k).mp hk1
            exact ⟨y, List.mem_append_left _ hy, hg ▸ hyg, hyk⟩
          · simp at hk1
            refine ⟨n, List.mem_append_right _ (by simp), hg.symm, hk1.symm⟩
        · rintro ⟨y, hy, hyg, hyk⟩
          rcases List.mem_append.mp hy with hy1 | hy1
          · exact List.mem_append_left _
              ((h2 n.forkGroupId k).mpr ⟨y, hy1, hg ▸ hyg, hyk⟩)
          · simp at hy1
            subst hy1
            apply List.mem_append_right
            simp [← hyk]
      · rw [if_neg hg]
        rw [h2 g k]
        constructor
        · rintro ⟨y, hy, hyg, hyk⟩
          exact ⟨y, List.mem_append_left _ hy, hyg, hyk⟩
        · rintro ⟨y, hy, hyg, hyk⟩
          rcases List.mem_append.mp hy with hy1 | hy1
          · exact ⟨y, hy1, hyg, hyk⟩
          · simp at hy1
            subst hy1
            exact absurd hyg.symm hg

theorem foldl_insertGroupKey_inv :
    ∀ (stream : List ForkNode) (gs : List (String × List String)) (seen : List ForkNode),
      (∀ g, ((lookupA gs g).getD []).Nodup) →
      (∀ g k, k ∈ (lookupA gs g).getD []
        ↔ ∃ y ∈ seen, y.forkGroupId = g ∧ nodeKey y = k) →
      (∀ g, ((lookupA (stream.foldl insertGroupKey gs) g).getD []).Nodup)
      ∧ (∀ g k, k ∈ (lookupA (stream.foldl insertGroupKey gs) g).getD []
          ↔ ∃ y ∈ seen ++ stream, y.forkGroupId = g ∧ nodeKey y = k) := by
  intro stream
  induction stream with
  | nil =>
    intro gs seen h1 h2
    rw [List.foldl_nil]
    refine ⟨h1, ?_⟩
    intro g k
    rw [List.append_nil]
    exact h2 g k
  | cons n rest ih =>
    intro gs seen h1 h2
    rw [List.foldl_cons]
    obtain ⟨g1, g2⟩ := insertGroupKey_inv gs seen n h1 h2
    obtain ⟨r1, r2⟩ := ih (insertGroupKey gs n) (seen ++ [n]) g1 g2
    refine ⟨r1, ?_⟩
    intro g k
    rw [r2 g k]
    rw [List.append_assoc]
    rfl

/-- C2: in every output of (the spec-modelled) `mergeForkNodes`, the
`groups` index is exactly the projection of the merged `nodes` index: the
key list of each group id is duplicate-free and contains a composite key
iff some merged node carries that group id and key — and the merge result
does not depend on the `groups` indices of its inputs at all. -/
theorem mergeForkNodes_groups_rebuilt (localIn cloudIn : ForkDataInput) :
    (∀ g, ((lookupA (mergeForkNodes localIn cloudIn).groups g).getD []).Nodup)
    ∧ (∀ g k, k ∈ (lookupA (mergeForkNodes localIn cloudIn).groups g).getD []
        ↔ ∃ n ∈ flattenNodes (mergeForkNodes localIn cloudIn),
            n.forkGroupId = g ∧ nodeKey n = k)
    ∧ (∀ (A : List (String × List ForkNode)) (G G' : List (String × List String))
        (B : ForkNodesData), mergeForkNodesData ⟨A, G⟩ B = mergeForkNodesData ⟨A, G'⟩ B)
    ∧ (∀ (A : ForkNodesData) (B : List (String × List ForkNode))
        (G G' : List (String × List String)),
        mergeForkNodesData A ⟨B, G⟩ = mergeForkNodesData A ⟨B, G'⟩) := by
  obtain ⟨ha, hb⟩ := foldl_insertGroupKey_inv
    (flattenNodes (mergeForkNodes localIn cloudIn)) [] []
    (by intro g; simp [lookupA])
    (by intro g k; simp [lookupA])
  refine ⟨ha, ?_, fun A G G' B => rfl, fun A B G G' => rfl⟩
  intro g k
  have := hb g k
  rw [List.nil_append] at this
  exact this

end GeminiVoyager
